import Mathlib

/-!
Verification of the atomic Game-of-Life core (`gol` crate).

The program stores each cell of a toroidal H×W Game-of-Life board as one
packed byte (bit 0 = alive flag, bits 1–4 = live-neighbor count) and updates
the board through per-cell atomic read-modify-write operations.  This file
gives a shallow embedding of that code and proves the specified properties.

Modelling conventions:
* a cell is its packed byte, a `Nat` (the Rust `u8` values that occur are
  small, and every operation is embedded with the exact bit manipulations of
  the source, so no `% 256` reduction is ever needed);
* a grid is the row-major `List Nat` of its cell bytes, exactly the
  `Vec<AtomicCell>` of `AtomicGrid<H, W>`;
* signed `isize` coordinates are embedded as `Int`;
* operations whose Rust counterparts can panic (`expect` on the
  `fetch_update` result of `add_neighbor` / `remove_neighbor`, propagated
  through `Grid::spawn` / `Grid::kill`) return `Option`, with `none` for the
  panic;
* the concurrent scheduler of `example/src/main.rs` is modelled by its
  deterministic sequentialisation: the per-generation snapshot followed by
  the per-worker `update_grid_range` calls applied in worker order (each
  coordinate is processed by at most one worker, and the per-cell effects
  commute, so this is the denotation of every interleaving that does not
  panic).
-/

namespace GoL

/-! ## Cell (src/gol/src/cell/atomic_cell.rs)

The packed byte: bit 0 alive, bits 1–4 neighbour count, bits 5–7 unused. -/

namespace AtomicCell

/-- `spawn`: set the first bit to 1 (`old | 1`). -/
def spawn (b : Nat) : Nat := b ||| 1

/-- `kill`: set the first bit to 0 (`old & !1`, and `!1u8 = 254`). -/
def kill (b : Nat) : Nat := b &&& 254

/-- `neighbors`: `(state >> 1) & 0b0000_1111`. -/
def neighbors (b : Nat) : Nat := (b >>> 1) &&& 15

/-- `alive`: `state & 1 == 1`. -/
def alive (b : Nat) : Bool := b &&& 1 == 1

/-- `fetch`: atomically load the packed byte (identity on the byte value). -/
def fetch (b : Nat) : Nat := b

/-- `add_neighbor`: increment the 4-bit count, refusing (`None`, which the
source turns into a panic through `expect`) if the count is already above 8
after the increment. -/
def add_neighbor (b : Nat) : Option Nat :=
  let count := (b >>> 1) &&& 15
  if count + 1 ≤ 8 then some ((b &&& 1) ||| ((count + 1) <<< 1)) else none

/-- `remove_neighbor`: decrement the 4-bit count, refusing if it is 0. -/
def remove_neighbor (b : Nat) : Option Nat :=
  let count := (b >>> 1) &&& 15
  if 0 < count then some ((b &&& 1) ||| ((count - 1) <<< 1)) else none

/-- Rust `AtomicU8::compare_exchange(value, expected, new)` on the byte
value: store `new` exactly when the current value equals `expected`. -/
def compare_exchange (value expected new' : Nat) : Nat :=
  if value = expected then new' else value

/-- `compare_and_exchange(&self, other)`: a compare-exchange whose expected
value is the value just loaded from `self`; sequentially it always succeeds
and stores `other`'s byte.  (`AtomicGrid::copy_from` invokes this method
under its earlier name `compare_and_swap`.) -/
def compare_and_exchange (self other : Nat) : Nat :=
  compare_exchange self self other

end AtomicCell

/-- The byte states reachable from the all-zero initial cell by the four
cell operations (a failing `add_neighbor`/`remove_neighbor` panics, so only
the successful updates extend a run). -/
inductive CellReachable : Nat → Prop where
  | init : CellReachable 0
  | spawn {b : Nat} : CellReachable b → CellReachable (AtomicCell.spawn b)
  | kill {b : Nat} : CellReachable b → CellReachable (AtomicCell.kill b)
  | add {b b' : Nat} : CellReachable b → AtomicCell.add_neighbor b = some b' →
      CellReachable b'
  | remove {b b' : Nat} : CellReachable b → AtomicCell.remove_neighbor b = some b' →
      CellReachable b'

/-- Well-formedness of a packed cell byte: the neighbour count is at most 8
and bits 5–7 are zero. -/
def CellWF (b : Nat) : Prop := AtomicCell.neighbors b ≤ 8 ∧ b >>> 5 = 0

instance (b : Nat) : Decidable (CellWF b) := by unfold CellWF; infer_instance

theorem cellWF_spawn : ∀ b, b < 32 → CellWF b → CellWF (AtomicCell.spawn b) := by decide

theorem cellWF_kill : ∀ b, b < 32 → CellWF b → CellWF (AtomicCell.kill b) := by decide

theorem cellWF_lt (b : Nat) (h : CellWF b) : b < 32 := by
  rcases h with ⟨-, h2⟩
  rw [Nat.shiftRight_eq_div_pow] at h2
  norm_num at h2
  omega

theorem cellWF_add : ∀ b, b < 32 → CellWF b →
    CellWF ((AtomicCell.add_neighbor b).getD 0) := by decide

theorem cellWF_remove : ∀ b, b < 32 → CellWF b →
    CellWF ((AtomicCell.remove_neighbor b).getD 0) := by decide

/-- **C4.** Starting from the all-zero cell, every sequence of `spawn`,
`kill`, `add_neighbor`, `remove_neighbor` keeps the packed byte well-formed:
the 4-bit neighbour count stays in `[0, 8]` and bits 5–7 stay 0. -/
theorem c4_cell_byte_well_formed (b : Nat) (h : CellReachable b) :
    AtomicCell.neighbors b ≤ 8 ∧ b >>> 5 = 0 := by
  induction h with
  | init => decide
  | spawn _ ih => exact cellWF_spawn _ (cellWF_lt _ ih) ih
  | kill _ ih => exact cellWF_kill _ (cellWF_lt _ ih) ih
  | add _ hs ih =>
      have := cellWF_add _ (cellWF_lt _ ih) ih
      rwa [hs] at this
  | remove _ hs ih =>
      have := cellWF_remove _ (cellWF_lt _ ih) ih
      rwa [hs] at this

/-- Witness for C4 at the concrete reachable byte 0. -/
theorem c4_cell_byte_well_formed_witness :
    AtomicCell.neighbors 0 ≤ 8 ∧ 0 >>> 5 = 0 :=
  c4_cell_byte_well_formed 0 CellReachable.init

/-! ## Grid (src/gol/src/grid/atomic_grid.rs)

A grid is the row-major list of its `H * W` cell bytes. -/

namespace AtomicGrid

/-- The toroidal wrap `((x % w + w) % w) as usize` computed by `get`; the
Rust `%` on `isize` is the truncating remainder `Int.tmod`. -/
def wrap (n : Nat) (x : Int) : Nat := ((x.tmod n + n).tmod n).toNat

/-- The flat index `wrapped_y * W + wrapped_x` computed by `get`. -/
def index (H W : Nat) (x y : Int) : Nat := wrap H y * W + wrap W x

/-- `get(x, y)`: the packed byte of the addressed cell. -/
def get (H W : Nat) (g : List Nat) (x y : Int) : Nat := g.getD (index H W x y) 0

/-- Two's-complement wrap of an integer into the `isize` value range
`[-2^63, 2^63)`. -/
def isizeWrap (z : Int) : Int := (z + 2 ^ 63) % 2 ^ 64 - 2 ^ 63

/-- Rust `isize::wrapping_add` on the embedded values. -/
def wrapping_add (a b : Int) : Int := isizeWrap (a + b)

/-- Rust `isize::wrapping_sub` on the embedded values. -/
def wrapping_sub (a b : Int) : Int := isizeWrap (a - b)

/-- The fixed 8-offset kernel (NW, N, NE, W, E, SW, S, SE) of
`neighbor_coordinates(x, y)`, with plain `±1` offsets.  The source computes
the offsets with `wrapping_add`/`wrapping_sub` on `isize`;
`neighbor_coordinates_w` below is that bit-exact version.  The two agree
for coordinates strictly between the `isize` extremes; at the extremes the
wrapped offset can denote a different cell whenever `W` or `H` does not
divide `2^64`. -/
def neighbor_coordinates (x y : Int) : List (Int × Int) :=
  [(x - 1, y - 1), (x, y - 1), (x + 1, y - 1),
   (x - 1, y), (x + 1, y),
   (x - 1, y + 1), (x, y + 1), (x + 1, y + 1)]

/-- `neighbor_coordinates(x, y)` exactly as the source computes it, with
the `isize` wrapping arithmetic made explicit. -/
def neighbor_coordinates_w (x y : Int) : List (Int × Int) :=
  [(wrapping_sub x 1, wrapping_sub y 1), (x, wrapping_sub y 1),
   (wrapping_add x 1, wrapping_sub y 1),
   (wrapping_sub x 1, y), (wrapping_add x 1, y),
   (wrapping_sub x 1, wrapping_add y 1), (x, wrapping_add y 1),
   (wrapping_add x 1, wrapping_add y 1)]

/-- `copy_from(&self, other)`: element-wise `compare_and_exchange` of each
of the destination's cells toward the source's byte; the source is only
read.  The result pairs the new destination cells with the (untouched)
source cells. -/
def copy_from (dest src : List Nat) : List Nat × List Nat :=
  ((List.range dest.length).map fun i =>
      AtomicCell.compare_and_exchange (dest.getD i 0) (src.getD i 0), src)

/-- `unsafe_copy_from`: assert equal sizes, then a raw
`ptr::copy_nonoverlapping` of the whole cell array (`none` models the
assertion failure). -/
def unsafe_copy_from (dest src : List Nat) : Option (List Nat × List Nat) :=
  if dest.length = src.length then some (src, src) else none

end AtomicGrid

/-! Arithmetic facts about the toroidal wrap. -/

theorem tmod_pos_lower_bound (x : Int) {w : Int} (hw : 0 < w) : -w < x.tmod w := by
  cases x with
  | ofNat m =>
      have h := Int.tmod_nonneg (a := Int.ofNat m) w (Int.ofNat_zero_le m)
      omega
  | negSucc m =>
      obtain ⟨n, rfl⟩ : ∃ n : Nat, w = (n : Int) := ⟨w.toNat, (Int.toNat_of_nonneg hw.le).symm⟩
      have hn : 0 < n := by exact_mod_cast hw
      have hdef : (Int.negSucc m).tmod n = -((m.succ % n : Nat) : Int) := rfl
      have hlt : m.succ % n < n := Nat.mod_lt _ hn
      rw [hdef]
      omega

/-- The chained truncating remainders of `get` implement the floor modulo. -/
theorem wrap_eq_emod (n : Nat) (x : Int) (hn : 0 < n) :
    (AtomicGrid.wrap n x : Int) = x % (n : Int) := by
  have hw : (0 : Int) < n := by exact_mod_cast hn
  have hlb := tmod_pos_lower_bound x hw
  have hub := Int.tmod_lt_of_pos x hw
  have h0 : 0 ≤ x.tmod n + n := by omega
  unfold AtomicGrid.wrap
  rw [Int.tmod_eq_emod h0 hw.le,
    Int.toNat_of_nonneg (Int.emod_nonneg _ (by omega))]
  have h1 : (x.tmod n + n) % (n : Int) = x.tmod n % n := by
    have h := Int.add_mul_emod_self_left (x.tmod n) n 1
    rwa [mul_one] at h
  rw [h1, Int.tmod_def]
  have h2 := Int.add_mul_emod_self_left x n (-(x.tdiv n))
  rwa [mul_neg, ← sub_eq_add_neg] at h2

theorem wrap_lt (n : Nat) (x : Int) (hn : 0 < n) : AtomicGrid.wrap n x < n := by
  have h := wrap_eq_emod n x hn
  have h2 := Int.emod_lt_of_pos x (b := (n : Int)) (by exact_mod_cast hn)
  omega

theorem index_lt (H W : Nat) (x y : Int) (hH : 0 < H) (hW : 0 < W) :
    AtomicGrid.index H W x y < H * W := by
  have hx := wrap_lt W x hW
  have hy := wrap_lt H y hH
  have h1 : AtomicGrid.wrap H y * W + AtomicGrid.wrap W x < (AtomicGrid.wrap H y + 1) * W := by
    rw [Nat.succ_mul]; omega
  exact lt_of_lt_of_le h1 (Nat.mul_le_mul_right W (by omega))

theorem wrap_eq_wrap_iff {n : Nat} (hn : 0 < n) (a b : Int) :
    AtomicGrid.wrap n a = AtomicGrid.wrap n b ↔ a % (n : Int) = b % (n : Int) := by
  have ha := wrap_eq_emod n a hn
  have hb := wrap_eq_emod n b hn
  constructor <;> intro h <;> omega

theorem index_eq_index_iff {H W : Nat} (hH : 0 < H) (hW : 0 < W)
    (x y x' y' : Int) :
    AtomicGrid.index H W x y = AtomicGrid.index H W x' y' ↔
      (x % (W : Int) = x' % (W : Int) ∧ y % (H : Int) = y' % (H : Int)) := by
  have hx := wrap_lt W x hW
  have hx' := wrap_lt W x' hW
  constructor
  · intro h
    unfold AtomicGrid.index at h
    have e1 : (AtomicGrid.wrap H y * W + AtomicGrid.wrap W x) % W = AtomicGrid.wrap W x := by
      rw [Nat.add_comm, Nat.add_mul_mod_self_right, Nat.mod_eq_of_lt hx]
    have e2 : (AtomicGrid.wrap H y' * W + AtomicGrid.wrap W x') % W = AtomicGrid.wrap W x' := by
      rw [Nat.add_comm, Nat.add_mul_mod_self_right, Nat.mod_eq_of_lt hx']
    have hmod : AtomicGrid.wrap W x = AtomicGrid.wrap W x' := by
      rw [← e1, ← e2, h]
    have hy : AtomicGrid.wrap H y * W = AtomicGrid.wrap H y' * W := by omega
    have hy' : AtomicGrid.wrap H y = AtomicGrid.wrap H y' :=
      Nat.eq_of_mul_eq_mul_right hW hy
    exact ⟨(wrap_eq_wrap_iff hW x x').1 hmod, (wrap_eq_wrap_iff hH y y').1 hy'⟩
  · rintro ⟨h1, h2⟩
    unfold AtomicGrid.index
    rw [(wrap_eq_wrap_iff hW x x').2 h1, (wrap_eq_wrap_iff hH y y').2 h2]

theorem index_coords (H W : Nat) {j : Nat} (hW : 0 < W) (hj : j < H * W) :
    AtomicGrid.index H W ((j % W : Nat) : Int) ((j / W : Nat) : Int) = j := by
  have hjW : j % W < W := Nat.mod_lt _ hW
  have hjH : j / W < H := by
    rw [Nat.div_lt_iff_lt_mul hW]; omega
  have hx : AtomicGrid.wrap W ((j % W : Nat) : Int) = j % W := by
    have h := wrap_eq_emod W ((j % W : Nat) : Int) hW
    have h2 : ((j % W : Nat) : Int) % (W : Int) = ((j % W : Nat) : Int) :=
      Int.emod_eq_of_lt (by positivity) (by exact_mod_cast hjW)
    exact_mod_cast h.trans h2
  have hy : AtomicGrid.wrap H ((j / W : Nat) : Int) = j / W := by
    have hH : 0 < H := by
      rcases Nat.eq_zero_or_pos H with h0 | h0
      · subst h0; omega
      · exact h0
    have h := wrap_eq_emod H ((j / W : Nat) : Int) hH
    have h2 : ((j / W : Nat) : Int) % (H : Int) = ((j / W : Nat) : Int) :=
      Int.emod_eq_of_lt (by positivity) (by exact_mod_cast hjH)
    exact_mod_cast h.trans h2
  unfold AtomicGrid.index
  rw [hx, hy, Nat.mul_comm (j / W) W]
  exact Nat.div_add_mod j W

/-- **C7.** `Grid::get` is toroidally periodic: shifting the coordinates by
any integer multiple of `W` (resp. `H`) resolves to the same flat index and
hence the same cell, and the wrapped coordinates are the floor modulo of the
inputs (so negative coordinates wrap correctly). -/
theorem c7_get_toroidally_periodic (H W : Nat) (g : List Nat) (x y k : Int)
    (hH : 0 < H) (hW : 0 < W) :
    AtomicGrid.index H W (x + k * W) (y + k * H) = AtomicGrid.index H W x y ∧
    AtomicGrid.get H W g (x + k * W) (y + k * H) = AtomicGrid.get H W g x y ∧
    (AtomicGrid.wrap W x : Int) = x % (W : Int) ∧
    (AtomicGrid.wrap H y : Int) = y % (H : Int) := by
  have hidx : AtomicGrid.index H W (x + k * W) (y + k * H) = AtomicGrid.index H W x y := by
    rw [index_eq_index_iff hH hW]
    constructor
    · have h := Int.add_mul_emod_self_left x W k
      rwa [mul_comm (W : Int) k] at h
    · have h := Int.add_mul_emod_self_left y H k
      rwa [mul_comm (H : Int) k] at h
  exact ⟨hidx, by unfold AtomicGrid.get; rw [hidx],
    wrap_eq_emod W x hW, wrap_eq_emod H y hH⟩

/-- Witness for C7: a 3×3 grid, negative coordinates, k = −2. -/
theorem c7_get_toroidally_periodic_witness :
    AtomicGrid.index 3 3 (-5 + (-2) * 3) (7 + (-2) * 3) = AtomicGrid.index 3 3 (-5) 7 ∧
    AtomicGrid.get 3 3 [1, 2, 3, 4, 5, 6, 7, 8, 9] (-5 + (-2) * 3) (7 + (-2) * 3) =
      AtomicGrid.get 3 3 [1, 2, 3, 4, 5, 6, 7, 8, 9] (-5) 7 ∧
    (AtomicGrid.wrap 3 (-5) : Int) = -5 % (3 : Int) ∧
    (AtomicGrid.wrap 3 7 : Int) = 7 % (3 : Int) :=
  c7_get_toroidally_periodic 3 3 [1, 2, 3, 4, 5, 6, 7, 8, 9] (-5) 7 (-2)
    (by decide) (by decide)

/-- **C10.** `Grid::get` is total: for every positive `H`, `W` and all signed
coordinates the wrapped coordinates lie in `[0, W) × [0, H)`, the flat index
is in bounds, and so is the flat index of every kernel neighbour. -/
theorem c10_get_total_in_bounds (H W : Nat) (x y : Int) (hH : 0 < H) (hW : 0 < W) :
    AtomicGrid.wrap W x < W ∧ AtomicGrid.wrap H y < H ∧
    AtomicGrid.index H W x y < H * W ∧
    ∀ p ∈ AtomicGrid.neighbor_coordinates x y, AtomicGrid.index H W p.1 p.2 < H * W := by
  refine ⟨wrap_lt W x hW, wrap_lt H y hH, index_lt H W x y hH hW, ?_⟩
  intro p _
  exact index_lt H W p.1 p.2 hH hW

/-- Witness for C10 at a 4×7 grid and extreme negative coordinates. -/
theorem c10_get_total_in_bounds_witness :
    AtomicGrid.wrap 7 (-123456789) < 7 ∧ AtomicGrid.wrap 4 (-987654321) < 4 ∧
    AtomicGrid.index 4 7 (-123456789) (-987654321) < 4 * 7 ∧
    ∀ p ∈ AtomicGrid.neighbor_coordinates (-123456789) (-987654321),
      AtomicGrid.index 4 7 p.1 p.2 < 4 * 7 :=
  c10_get_total_in_bounds 4 7 (-123456789) (-987654321) (by decide) (by decide)

/-- **C8.** After `copy_from` (and after `unsafe_copy_from`, given the
asserted equal sizes) every destination cell holds the same packed byte as
the corresponding source cell, and the source cells are unchanged. -/
theorem c8_copy_from_consistency (dest src : List Nat)
    (h : dest.length = src.length) :
    (∀ i, i < dest.length → (AtomicGrid.copy_from dest src).1.getD i 0 = src.getD i 0) ∧
    (AtomicGrid.copy_from dest src).2 = src ∧
    (AtomicGrid.copy_from dest src).1.length = dest.length ∧
    AtomicGrid.unsafe_copy_from dest src = some (src, src) := by
  refine ⟨?_, rfl, by simp [AtomicGrid.copy_from], by simp [AtomicGrid.unsafe_copy_from, h]⟩
  intro i hi
  unfold AtomicGrid.copy_from
  simp only [List.getD_eq_getElem?_getD, List.getElem?_map, List.getElem?_range hi]
  simp [AtomicCell.compare_and_exchange, AtomicCell.compare_exchange,
    List.getD_eq_getElem?_getD]

/-- Witness for C8 on concrete 2-cell grids. -/
theorem c8_copy_from_consistency_witness :
    (∀ i, i < [5, 6].length → (AtomicGrid.copy_from [5, 6] [7, 8]).1.getD i 0 = [7, 8].getD i 0) ∧
    (AtomicGrid.copy_from [5, 6] [7, 8]).2 = [7, 8] ∧
    (AtomicGrid.copy_from [5, 6] [7, 8]).1.length = [5, 6].length ∧
    AtomicGrid.unsafe_copy_from [5, 6] [7, 8] = some ([7, 8], [7, 8]) :=
  c8_copy_from_consistency [5, 6] [7, 8] (by decide)

/-! ## Spawn and kill with neighbour propagation -/

namespace AtomicGrid

/-- The propagation loop of `spawn`: `add_neighbor` on each of the listed
coordinates in turn, propagating the panic as `none`. -/
def add_neighbors (H W : Nat) : List (Int × Int) → List Nat → Option (List Nat)
  | [], g => some g
  | c :: cs, g =>
      match AtomicCell.add_neighbor (get H W g c.1 c.2) with
      | none => none
      | some b => add_neighbors H W cs (g.set (index H W c.1 c.2) b)

/-- The propagation loop of `kill`: `remove_neighbor` on each coordinate. -/
def remove_neighbors (H W : Nat) : List (Int × Int) → List Nat → Option (List Nat)
  | [], g => some g
  | c :: cs, g =>
      match AtomicCell.remove_neighbor (get H W g c.1 c.2) with
      | none => none
      | some b => remove_neighbors H W cs (g.set (index H W c.1 c.2) b)

/-- `spawn(x, y)`: set the centre cell's alive bit, then increment the
neighbour count of each of its 8 kernel neighbours. -/
def spawn (H W : Nat) (g : List Nat) (x y : Int) : Option (List Nat) :=
  add_neighbors H W (neighbor_coordinates x y)
    (g.set (index H W x y) (AtomicCell.spawn (get H W g x y)))

/-- `kill(x, y)`: clear the centre cell's alive bit, then decrement the
neighbour count of each of its 8 kernel neighbours. -/
def kill (H W : Nat) (g : List Nat) (x y : Int) : Option (List Nat) :=
  remove_neighbors H W (neighbor_coordinates x y)
    (g.set (index H W x y) (AtomicCell.kill (get H W g x y)))

/-- `spawn(x, y)` with the kernel's `isize` wrapping made explicit
(bit-exact at every coordinate, including the extremes). -/
def spawn_w (H W : Nat) (g : List Nat) (x y : Int) : Option (List Nat) :=
  add_neighbors H W (neighbor_coordinates_w x y)
    (g.set (index H W x y) (AtomicCell.spawn (get H W g x y)))

/-- `kill(x, y)` with the kernel's `isize` wrapping made explicit. -/
def kill_w (H W : Nat) (g : List Nat) (x y : Int) : Option (List Nat) :=
  remove_neighbors H W (neighbor_coordinates_w x y)
    (g.set (index H W x y) (AtomicCell.kill (get H W g x y)))

/-- `spawn_shape(start, offsets)`: `spawn` at `start + offset` for each
offset in turn. -/
def spawn_shape (H W : Nat) (start : Int × Int) :
    List (Int × Int) → List Nat → Option (List Nat)
  | [], g => some g
  | o :: os, g =>
      match spawn H W g (start.1 + o.1) (start.2 + o.2) with
      | none => none
      | some g' => spawn_shape H W start os g'

end AtomicGrid

/-! ## Verification-side bookkeeping: multiplicities and neighbour sums -/

/-- The alive bit of a packed byte. -/
def aliveBit (b : Nat) : Nat := b &&& 1

/-- Number of occurrences of the index `j` in a list of flat indices. -/
def countIdx (l : List Nat) (j : Nat) : Nat :=
  (l.map fun t => if t = j then 1 else 0).sum

/-- The kernel offsets underlying `neighbor_coordinates`. -/
def D8 : List (Int × Int) :=
  [(-1, -1), (0, -1), (1, -1), (-1, 0), (1, 0), (-1, 1), (0, 1), (1, 1)]

/-- The flat indices of the 8 kernel neighbours of `(x, y)` (plain-offset
kernel). -/
def neighborTargets (H W : Nat) (x y : Int) : List Nat :=
  (AtomicGrid.neighbor_coordinates x y).map fun c => AtomicGrid.index H W c.1 c.2

/-- The flat indices of the 8 kernel neighbours of `(x, y)` under the
source's `isize`-wrapping kernel. -/
def neighborTargets_w (H W : Nat) (x y : Int) : List Nat :=
  (AtomicGrid.neighbor_coordinates_w x y).map fun c => AtomicGrid.index H W c.1 c.2

/-- With what multiplicity the cell with flat index `j` occurs among the
kernel neighbours of `(x, y)` (can exceed 1 on grids thinner than 3). -/
def neighborMult (H W : Nat) (x y : Int) (j : Nat) : Nat :=
  countIdx (neighborTargets H W x y) j

/-- The number of alive cells among the 8 kernel neighbours of `(x, y)`,
counted with multiplicity. -/
def neighborSum (H W : Nat) (g : List Nat) (x y : Int) : Nat :=
  ((neighborTargets H W x y).map fun t => aliveBit (g.getD t 0)).sum

/-- Consistency of a grid: right length, and every cell's packed byte is its
alive bit plus twice the number of alive cells among its 8 toroidal
neighbours. All grids built by `spawn`-on-dead / `kill`-on-alive from the
all-dead grid satisfy this. -/
def Consistent (H W : Nat) (g : List Nat) : Prop :=
  g.length = H * W ∧ ∀ j, j < H * W →
    g.getD j 0 = aliveBit (g.getD j 0) +
      2 * neighborSum H W g ((j % W : Nat) : Int) ((j / W : Nat) : Int)

/-! Pointwise facts about the byte operations on well-formed bytes
(`b < 18`, i.e. alive bit plus a count of at most 8). -/

theorem aliveBit_eq_mod (b : Nat) : aliveBit b = b % 2 := Nat.and_one_is_mod b

theorem aliveBit_le_one (b : Nat) : aliveBit b ≤ 1 := by
  rw [aliveBit_eq_mod]; omega

theorem add_neighbor_eq : ∀ b < 16, AtomicCell.add_neighbor b = some (b + 2) := by decide

theorem add_neighbor_bound : ∀ b < 18,
    (AtomicCell.add_neighbor b).isSome = true → b ≤ 15 := by decide

theorem remove_neighbor_eq : ∀ b < 18, 2 ≤ b →
    AtomicCell.remove_neighbor b = some (b - 2) := by decide

theorem remove_neighbor_bound : ∀ b < 18,
    (AtomicCell.remove_neighbor b).isSome = true → 2 ≤ b := by decide

theorem spawn_byte : ∀ b < 18, AtomicCell.spawn b = b + 1 - b % 2 := by decide

theorem spawn_byte_lt : ∀ b < 18, AtomicCell.spawn b < 18 := by decide

theorem kill_byte : ∀ b < 18, AtomicCell.kill b = b - b % 2 := by decide

theorem kill_byte_lt : ∀ b < 18, AtomicCell.kill b < 18 := by decide

theorem neighbors_div : ∀ b < 20, AtomicCell.neighbors b = b / 2 := by decide

theorem alive_mod : ∀ b < 20, (AtomicCell.alive b = true ↔ b % 2 = 1) := by decide

theorem neighbors_add_two : ∀ b < 16,
    AtomicCell.neighbors (b + 2) = AtomicCell.neighbors b + 1 := by decide

theorem alive_add_two : ∀ b < 16, AtomicCell.alive (b + 2) = AtomicCell.alive b := by decide

/-! List bookkeeping lemmas. -/

theorem getD_set (g : List Nat) (i j b : Nat) :
    (g.set i b).getD j 0 = if i = j ∧ i < g.length then b else g.getD j 0 := by
  induction g generalizing i j with
  | nil => simp
  | cons a t ih =>
      cases i with
      | zero =>
          cases j with
          | zero => simp
          | succ j => simp
      | succ i =>
          cases j with
          | zero => simp
          | succ j =>
              simp only [List.set_cons_succ, List.getD_cons_succ, List.length_cons]
              rw [ih]
              by_cases hij : i = j
              · subst hij
                by_cases hlt : i < t.length
                · rw [if_pos ⟨rfl, hlt⟩, if_pos ⟨rfl, by omega⟩]
                · rw [if_neg (by tauto), if_neg (by omega)]
              · rw [if_neg (by tauto), if_neg (by omega)]

theorem getD_replicate_zero (n j : Nat) : (List.replicate n (0 : Nat)).getD j 0 = 0 := by
  induction n generalizing j with
  | zero => simp
  | succ n ih =>
      cases j with
      | zero => simp [List.replicate]
      | succ j => simp only [List.replicate, List.getD_cons_succ]; exact ih j

theorem countIdx_cons (a : Nat) (l : List Nat) (j : Nat) :
    countIdx (a :: l) j = (if a = j then 1 else 0) + countIdx l j := by
  simp [countIdx]

theorem countIdx_eq_zero {l : List Nat} {j : Nat} (h : j ∉ l) : countIdx l j = 0 := by
  induction l with
  | nil => rfl
  | cons a t ih =>
      rw [countIdx_cons, ih (fun hm => h (List.mem_cons_of_mem a hm)),
        if_neg (fun he => h (by rw [← he]; exact List.mem_cons_self a t))]

theorem countIdx_nodup {l : List Nat} {j : Nat} (hn : l.Nodup) (h : j ∈ l) :
    countIdx l j = 1 := by
  induction l with
  | nil => cases h
  | cons a t ih =>
      rw [countIdx_cons]
      rcases List.mem_cons.1 h with rfl | hm
      · rw [if_pos rfl, countIdx_eq_zero (List.Nodup.not_mem hn)]
      · rw [ih (List.Nodup.of_cons hn) hm,
          if_neg (fun he => (List.Nodup.not_mem hn) (by rw [he]; exact hm))]

theorem countIdx_pos_mem {l : List Nat} {j : Nat} (h : 0 < countIdx l j) : j ∈ l := by
  induction l with
  | nil => simp [countIdx] at h
  | cons a t ih =>
      rw [countIdx_cons] at h
      by_cases ha : a = j
      · exact ha ▸ List.mem_cons_self a t
      · rw [if_neg ha] at h
        exact List.mem_cons_of_mem a (ih (by omega))

theorem countIdx_reverse (l : List Nat) (j : Nat) :
    countIdx l.reverse j = countIdx l j := by
  unfold countIdx
  rw [List.map_reverse, List.sum_reverse]

theorem countIdx_map_congr {α : Type} (l : List α) (f1 f2 : α → Nat) (j i : Nat)
    (h : ∀ d ∈ l, (f1 d = j ↔ f2 d = i)) :
    countIdx (l.map f1) j = countIdx (l.map f2) i := by
  induction l with
  | nil => rfl
  | cons a t ih =>
      simp only [List.map_cons, countIdx_cons]
      rw [ih (fun d hd => h d (List.mem_cons_of_mem a hd))]
      by_cases h1 : f1 a = j
      · rw [if_pos h1, if_pos ((h a (List.mem_cons_self a t)).1 h1)]
      · rw [if_neg h1, if_neg (fun h2 => h1 ((h a (List.mem_cons_self a t)).2 h2))]

theorem sum_map_le (l : List Nat) (f : Nat → Nat) (h : ∀ t ∈ l, f t ≤ 1) :
    (l.map f).sum ≤ l.length := by
  induction l with
  | nil => simp
  | cons a t ih =>
      simp only [List.map_cons, List.sum_cons, List.length_cons]
      have := h a (List.mem_cons_self a t)
      have := ih (fun t' ht' => h t' (List.mem_cons_of_mem a ht'))
      omega

theorem sum_add_countIdx_le (l : List Nat) (f : Nat → Nat) (i : Nat)
    (h1 : ∀ t ∈ l, f t ≤ 1) (h2 : f i = 0) :
    (l.map f).sum + countIdx l i ≤ l.length := by
  induction l with
  | nil => simp [countIdx]
  | cons a t ih =>
      simp only [List.map_cons, List.sum_cons, List.length_cons, countIdx_cons]
      have ht := ih (fun t' ht' => h1 t' (List.mem_cons_of_mem a ht'))
      by_cases ha : a = i
      · rw [if_pos ha, ha, h2]; omega
      · rw [if_neg ha]
        have := h1 a (List.mem_cons_self a t)
        omega

theorem countIdx_le_sum (l : List Nat) (f : Nat → Nat) (i : Nat) (h2 : 1 ≤ f i) :
    countIdx l i ≤ (l.map f).sum := by
  induction l with
  | nil => simp [countIdx]
  | cons a t ih =>
      simp only [List.map_cons, List.sum_cons, countIdx_cons]
      by_cases ha : a = i
      · rw [if_pos ha, ha]; omega
      · rw [if_neg ha]; omega

theorem sum_map_shift (l : List Nat) (f f' : Nat → Nat) (i : Nat)
    (h : ∀ t ∈ l, f' t = f t + (if t = i then 1 else 0)) :
    (l.map f').sum = (l.map f).sum + countIdx l i := by
  induction l with
  | nil => simp [countIdx]
  | cons a t ih =>
      simp only [List.map_cons, List.sum_cons, countIdx_cons]
      rw [h a (List.mem_cons_self a t),
        ih (fun t' ht' => h t' (List.mem_cons_of_mem a ht'))]
      omega

/-! The kernel is closed under negation, which gives the symmetry
`(multiplicity of j among the neighbours of c) =
 (multiplicity of c among the neighbours of j)`. -/

theorem neighborTargets_eq (H W : Nat) (x y : Int) :
    neighborTargets H W x y =
      D8.map fun d => AtomicGrid.index H W (x + d.1) (y + d.2) := by
  simp [neighborTargets, AtomicGrid.neighbor_coordinates, D8, sub_eq_add_neg]

theorem neighborTargets_length (H W : Nat) (x y : Int) :
    (neighborTargets H W x y).length = 8 := rfl

theorem D8_reverse : D8.reverse = D8.map fun d => (-d.1, -d.2) := by decide

theorem D8_bounds : ∀ d ∈ D8, d.1.natAbs ≤ 1 ∧ d.2.natAbs ≤ 1 := by decide

theorem D8_no_center : ∀ d ∈ D8, ¬(d.1 = 0 ∧ d.2 = 0) := by decide

theorem D8_nodup : D8.Nodup := by decide

theorem emod_eq_zero_neg {n z : Int} (h : z % n = 0) : (-z) % n = 0 :=
  Int.emod_eq_zero_of_dvd (dvd_neg.2 (Int.dvd_of_emod_eq_zero h))

theorem emod_shift_iff (n a b u : Int) :
    (a + -u) % n = b % n ↔ (b + u) % n = a % n := by
  rw [Int.emod_eq_emod_iff_emod_sub_eq_zero, Int.emod_eq_emod_iff_emod_sub_eq_zero]
  constructor <;> intro h
  · have e : b + u - a = -(a + -u - b) := by ring
    rw [e]; exact emod_eq_zero_neg h
  · have e : a + -u - b = -(b + u - a) := by ring
    rw [e]; exact emod_eq_zero_neg h

theorem index_shift_iff {H W : Nat} (hH : 0 < H) (hW : 0 < W)
    (x y xj yj u v : Int) :
    AtomicGrid.index H W (x + -u) (y + -v) = AtomicGrid.index H W xj yj ↔
    AtomicGrid.index H W (xj + u) (yj + v) = AtomicGrid.index H W x y := by
  rw [index_eq_index_iff hH hW, index_eq_index_iff hH hW]
  constructor <;> rintro ⟨h1, h2⟩
  · exact ⟨(emod_shift_iff (W : Int) x xj u).1 h1, (emod_shift_iff (H : Int) y yj v).1 h2⟩
  · exact ⟨(emod_shift_iff (W : Int) x xj u).2 h1, (emod_shift_iff (H : Int) y yj v).2 h2⟩

theorem mult_symm {H W : Nat} (hH : 0 < H) (hW : 0 < W) (x y : Int) {j : Nat}
    (hj : j < H * W) :
    neighborMult H W x y j =
      countIdx (neighborTargets H W ((j % W : Nat) : Int) ((j / W : Nat) : Int))
        (AtomicGrid.index H W x y) := by
  have hji := index_coords H W hW hj
  unfold neighborMult
  rw [neighborTargets_eq, neighborTargets_eq,
    ← countIdx_reverse (D8.map fun d => AtomicGrid.index H W (x + d.1) (y + d.2)) j,
    ← List.map_reverse, D8_reverse, List.map_map]
  apply countIdx_map_congr
  intro d _
  simp only [Function.comp]
  have key := index_shift_iff hH hW x y ((j % W : Nat) : Int) ((j / W : Nat) : Int) d.1 d.2
  rw [hji] at key
  exact key

/-! Soundness and completeness of the two propagation loops. -/

theorem add_neighbors_sound (H W : Nat) (cs : List (Int × Int)) :
    ∀ (g g' : List Nat),
    AtomicGrid.add_neighbors H W cs g = some g' →
    (∀ j, g.getD j 0 < 18) →
    (∀ c ∈ cs, AtomicGrid.index H W c.1 c.2 < g.length) →
    g'.length = g.length ∧ (∀ j, g'.getD j 0 < 18) ∧
      ∀ j, g'.getD j 0 = g.getD j 0 +
        2 * countIdx (cs.map fun c => AtomicGrid.index H W c.1 c.2) j := by
  induction cs with
  | nil =>
      intro g g' h hwf _
      have h' : g = g' := by
        simpa [AtomicGrid.add_neighbors] using h
      subst h'
      exact ⟨rfl, hwf, fun j => by simp [countIdx]⟩
  | cons c cs ih =>
      intro g g' h hwf hlen
      have hstep : AtomicGrid.add_neighbors H W (c :: cs) g =
          match AtomicCell.add_neighbor (AtomicGrid.get H W g c.1 c.2) with
          | none => none
          | some b => AtomicGrid.add_neighbors H W cs
              (g.set (AtomicGrid.index H W c.1 c.2) b) := rfl
      rw [hstep] at h
      cases hadd : AtomicCell.add_neighbor (AtomicGrid.get H W g c.1 c.2) with
      | none => rw [hadd] at h; cases h
      | some b2 =>
          rw [hadd] at h
          have hb : AtomicGrid.get H W g c.1 c.2 =
              g.getD (AtomicGrid.index H W c.1 c.2) 0 := rfl
          have hbwf := hwf (AtomicGrid.index H W c.1 c.2)
          have hsome : (AtomicCell.add_neighbor
              (g.getD (AtomicGrid.index H W c.1 c.2) 0)).isSome = true := by
            rw [← hb, hadd]; rfl
          have hle : g.getD (AtomicGrid.index H W c.1 c.2) 0 ≤ 15 :=
            add_neighbor_bound _ hbwf hsome
          have hb2 : b2 = g.getD (AtomicGrid.index H W c.1 c.2) 0 + 2 := by
            have he := add_neighbor_eq (g.getD (AtomicGrid.index H W c.1 c.2) 0) (by omega)
            rw [hb, he] at hadd
            exact (Option.some_inj.mp hadd).symm
          have hilen : AtomicGrid.index H W c.1 c.2 < g.length :=
            hlen c (List.mem_cons_self c cs)
          have hwf1 : ∀ j, (g.set (AtomicGrid.index H W c.1 c.2) b2).getD j 0 < 18 := by
            intro j
            rw [getD_set]
            by_cases hij : AtomicGrid.index H W c.1 c.2 = j ∧
                AtomicGrid.index H W c.1 c.2 < g.length
            · rw [if_pos hij]; omega
            · rw [if_neg hij]; exact hwf j
          have hcs : ∀ c' ∈ cs, AtomicGrid.index H W c'.1 c'.2 <
              (g.set (AtomicGrid.index H W c.1 c.2) b2).length := by
            rw [List.length_set]
            exact fun c' hc' => hlen c' (List.mem_cons_of_mem c hc')
          obtain ⟨hl, hw, hf⟩ := ih _ g' h hwf1 hcs
          refine ⟨hl.trans (List.length_set ..), hw, ?_⟩
          intro j
          rw [hf j, getD_set, List.map_cons, countIdx_cons]
          by_cases hij : AtomicGrid.index H W c.1 c.2 = j
          · subst hij
            rw [if_pos ⟨rfl, hilen⟩, if_pos rfl]
            omega
          · rw [if_neg (fun hc => hij hc.1), if_neg hij]
            omega

theorem add_neighbors_complete (H W : Nat) (cs : List (Int × Int)) :
    ∀ (g : List Nat),
    (∀ j, g.getD j 0 < 18) →
    (∀ c ∈ cs, AtomicGrid.index H W c.1 c.2 < g.length) →
    (∀ j, g.getD j 0 / 2 +
        countIdx (cs.map fun c => AtomicGrid.index H W c.1 c.2) j ≤ 8) →
    (AtomicGrid.add_neighbors H W cs g).isSome = true := by
  induction cs with
  | nil => intro g _ _ _; rfl
  | cons c cs ih =>
      intro g hwf hlen hok
      have hstep : AtomicGrid.add_neighbors H W (c :: cs) g =
          match AtomicCell.add_neighbor (AtomicGrid.get H W g c.1 c.2) with
          | none => none
          | some b => AtomicGrid.add_neighbors H W cs
              (g.set (AtomicGrid.index H W c.1 c.2) b) := rfl
      have hb : AtomicGrid.get H W g c.1 c.2 =
          g.getD (AtomicGrid.index H W c.1 c.2) 0 := rfl
      have hcnt := hok (AtomicGrid.index H W c.1 c.2)
      rw [List.map_cons, countIdx_cons, if_pos rfl] at hcnt
      have hle : g.getD (AtomicGrid.index H W c.1 c.2) 0 ≤ 15 := by omega
      have he := add_neighbor_eq (g.getD (AtomicGrid.index H W c.1 c.2) 0) (by omega)
      rw [hstep, hb, he]
      have hilen : AtomicGrid.index H W c.1 c.2 < g.length :=
        hlen c (List.mem_cons_self c cs)
      apply ih
      · intro j
        rw [getD_set]
        by_cases hij : AtomicGrid.index H W c.1 c.2 = j ∧
            AtomicGrid.index H W c.1 c.2 < g.length
        · rw [if_pos hij]; omega
        · rw [if_neg hij]; exact hwf j
      · rw [List.length_set]
        exact fun c' hc' => hlen c' (List.mem_cons_of_mem c hc')
      · intro j
        have hokj := hok j
        rw [List.map_cons, countIdx_cons] at hokj
        rw [getD_set]
        by_cases hij : AtomicGrid.index H W c.1 c.2 = j
        · subst hij
          rw [if_pos ⟨rfl, hilen⟩]
          rw [if_pos rfl] at hokj
          omega
        · rw [if_neg (fun hc => hij hc.1)]
          rw [if_neg hij] at hokj
          omega

theorem remove_neighbors_sound (H W : Nat) (cs : List (Int × Int)) :
    ∀ (g g' : List Nat),
    AtomicGrid.remove_neighbors H W cs g = some g' →
    (∀ j, g.getD j 0 < 18) →
    (∀ c ∈ cs, AtomicGrid.index H W c.1 c.2 < g.length) →
    g'.length = g.length ∧ (∀ j, g'.getD j 0 < 18) ∧
      ∀ j, g.getD j 0 = g'.getD j 0 +
        2 * countIdx (cs.map fun c => AtomicGrid.index H W c.1 c.2) j := by
  induction cs with
  | nil =>
      intro g g' h hwf _
      have h' : g = g' := by
        simpa [AtomicGrid.remove_neighbors] using h
      subst h'
      exact ⟨rfl, hwf, fun j => by simp [countIdx]⟩
  | cons c cs ih =>
      intro g g' h hwf hlen
      have hstep : AtomicGrid.remove_neighbors H W (c :: cs) g =
          match AtomicCell.remove_neighbor (AtomicGrid.get H W g c.1 c.2) with
          | none => none
          | some b => AtomicGrid.remove_neighbors H W cs
              (g.set (AtomicGrid.index H W c.1 c.2) b) := rfl
      rw [hstep] at h
      cases hrem : AtomicCell.remove_neighbor (AtomicGrid.get H W g c.1 c.2) with
      | none => rw [hrem] at h; cases h
      | some b2 =>
          rw [hrem] at h
          have hb : AtomicGrid.get H W g c.1 c.2 =
              g.getD (AtomicGrid.index H W c.1 c.2) 0 := rfl
          have hbwf := hwf (AtomicGrid.index H W c.1 c.2)
          have hsome : (AtomicCell.remove_neighbor
              (g.getD (AtomicGrid.index H W c.1 c.2) 0)).isSome = true := by
            rw [← hb, hrem]; rfl
          have hge : 2 ≤ g.getD (AtomicGrid.index H W c.1 c.2) 0 :=
            remove_neighbor_bound _ hbwf hsome
          have hb2 : b2 = g.getD (AtomicGrid.index H W c.1 c.2) 0 - 2 := by
            have he := remove_neighbor_eq (g.getD (AtomicGrid.index H W c.1 c.2) 0) hbwf hge
            rw [hb, he] at hrem
            exact (Option.some_inj.mp hrem).symm
          have hilen : AtomicGrid.index H W c.1 c.2 < g.length :=
            hlen c (List.mem_cons_self c cs)
          have hwf1 : ∀ j, (g.set (AtomicGrid.index H W c.1 c.2) b2).getD j 0 < 18 := by
            intro j
            rw [getD_set]
            by_cases hij : AtomicGrid.index H W c.1 c.2 = j ∧
                AtomicGrid.index H W c.1 c.2 < g.length
            · rw [if_pos hij]; omega
            · rw [if_neg hij]; exact hwf j
          have hcs : ∀ c' ∈ cs, AtomicGrid.index H W c'.1 c'.2 <
              (g.set (AtomicGrid.index H W c.1 c.2) b2).length := by
            rw [List.length_set]
            exact fun c' hc' => hlen c' (List.mem_cons_of_mem c hc')
          obtain ⟨hl, hw, hf⟩ := ih _ g' h hwf1 hcs
          refine ⟨hl.trans (List.length_set ..), hw, ?_⟩
          intro j
          have hfj := hf j
          rw [getD_set] at hfj
          rw [List.map_cons, countIdx_cons]
          by_cases hij : AtomicGrid.index H W c.1 c.2 = j
          · subst hij
            rw [if_pos ⟨rfl, hilen⟩] at hfj
            rw [if_pos rfl]
            omega
          · rw [if_neg (fun hc => hij hc.1)] at hfj
            rw [if_neg hij]
            omega

theorem remove_neighbors_complete (H W : Nat) (cs : List (Int × Int)) :
    ∀ (g : List Nat),
    (∀ j, g.getD j 0 < 18) →
    (∀ c ∈ cs, AtomicGrid.index H W c.1 c.2 < g.length) →
    (∀ j, countIdx (cs.map fun c => AtomicGrid.index H W c.1 c.2) j ≤
        g.getD j 0 / 2) →
    (AtomicGrid.remove_neighbors H W cs g).isSome = true := by
  induction cs with
  | nil => intro g _ _ _; rfl
  | cons c cs ih =>
      intro g hwf hlen hok
      have hstep : AtomicGrid.remove_neighbors H W (c :: cs) g =
          match AtomicCell.remove_neighbor (AtomicGrid.get H W g c.1 c.2) with
          | none => none
          | some b => AtomicGrid.remove_neighbors H W cs
              (g.set (AtomicGrid.index H W c.1 c.2) b) := rfl
      have hb : AtomicGrid.get H W g c.1 c.2 =
          g.getD (AtomicGrid.index H W c.1 c.2) 0 := rfl
      have hcnt := hok (AtomicGrid.index H W c.1 c.2)
      rw [List.map_cons, countIdx_cons, if_pos rfl] at hcnt
      have hge : 2 ≤ g.getD (AtomicGrid.index H W c.1 c.2) 0 := by omega
      have he := remove_neighbor_eq (g.getD (AtomicGrid.index H W c.1 c.2) 0)
        (hwf _) hge
      rw [hstep, hb, he]
      have hilen : AtomicGrid.index H W c.1 c.2 < g.length :=
        hlen c (List.mem_cons_self c cs)
      have hbwf := hwf (AtomicGrid.index H W c.1 c.2)
      apply ih
      · intro j
        rw [getD_set]
        by_cases hij : AtomicGrid.index H W c.1 c.2 = j ∧
            AtomicGrid.index H W c.1 c.2 < g.length
        · rw [if_pos hij]; omega
        · rw [if_neg hij]; exact hwf j
      · rw [List.length_set]
        exact fun c' hc' => hlen c' (List.mem_cons_of_mem c hc')
      · intro j
        have hokj := hok j
        rw [List.map_cons, countIdx_cons] at hokj
        rw [getD_set]
        by_cases hij : AtomicGrid.index H W c.1 c.2 = j
        · subst hij
          rw [if_pos ⟨rfl, hilen⟩]
          rw [if_pos rfl] at hokj
          omega
        · rw [if_neg (fun hc => hij hc.1)]
          rw [if_neg hij] at hokj
          omega

/-! Spawn and kill on consistent grids: success and exact effect. -/

theorem targets_map (H W : Nat) (x y : Int) :
    ((AtomicGrid.neighbor_coordinates x y).map fun c => AtomicGrid.index H W c.1 c.2) =
      neighborTargets H W x y := rfl

theorem mem_targets_lt {H W : Nat} (hH : 0 < H) (hW : 0 < W) {x y : Int} {j : Nat}
    (h : j ∈ neighborTargets H W x y) : j < H * W := by
  rw [neighborTargets_eq] at h
  obtain ⟨d, -, rfl⟩ := List.mem_map.1 h
  exact index_lt H W _ _ hH hW

theorem neighborSum_le_eight (H W : Nat) (g : List Nat) (x y : Int) :
    neighborSum H W g x y ≤ 8 := by
  have h := sum_map_le (neighborTargets H W x y) (fun t => aliveBit (g.getD t 0))
    (fun t _ => aliveBit_le_one _)
  rwa [neighborTargets_length] at h

theorem consistent_wf {H W : Nat} {g : List Nat} (hc : Consistent H W g) (j : Nat) :
    g.getD j 0 < 18 := by
  by_cases hj : j < H * W
  · have h := hc.2 j hj
    have h1 := aliveBit_le_one (g.getD j 0)
    have h2 := neighborSum_le_eight H W g ((j % W : Nat) : Int) ((j / W : Nat) : Int)
    omega
  · rw [List.getD_eq_default]
    · omega
    · rw [hc.1]; omega

theorem consistent_div2 {H W : Nat} {g : List Nat} (hc : Consistent H W g) {j : Nat}
    (hj : j < H * W) :
    g.getD j 0 / 2 = neighborSum H W g ((j % W : Nat) : Int) ((j / W : Nat) : Int) := by
  have h := hc.2 j hj
  have h1 := aliveBit_le_one (g.getD j 0)
  rw [aliveBit_eq_mod] at h
  omega

theorem alive_false_iff (b : Nat) : AtomicCell.alive b = false ↔ aliveBit b = 0 := by
  simp only [AtomicCell.alive, aliveBit, Nat.and_one_is_mod, beq_eq_false_iff_ne, ne_eq]
  omega

theorem alive_true_iff (b : Nat) : AtomicCell.alive b = true ↔ aliveBit b = 1 := by
  simp only [AtomicCell.alive, aliveBit, Nat.and_one_is_mod, beq_iff_eq]

theorem spawn_spec {H W : Nat} (hH : 0 < H) (hW : 0 < W) {g : List Nat} (x y : Int)
    (hc : Consistent H W g)
    (hdead : aliveBit (AtomicGrid.get H W g x y) = 0) :
    ∃ g', AtomicGrid.spawn H W g x y = some g' ∧ Consistent H W g' ∧
      ∀ j, g'.getD j 0 = g.getD j 0 +
        (if AtomicGrid.index H W x y = j then 1 else 0) + 2 * neighborMult H W x y j := by
  have hwf := consistent_wf hc
  have hlen : g.length = H * W := hc.1
  have hilen : AtomicGrid.index H W x y < g.length := by
    rw [hlen]; exact index_lt H W x y hH hW
  have hbeven : g.getD (AtomicGrid.index H W x y) 0 % 2 = 0 := by
    rw [← aliveBit_eq_mod]; exact hdead
  have hspawnb : AtomicCell.spawn (g.getD (AtomicGrid.index H W x y) 0) =
      g.getD (AtomicGrid.index H W x y) 0 + 1 := by
    have h := spawn_byte _ (hwf (AtomicGrid.index H W x y))
    omega
  have hg1 : ∀ j, (g.set (AtomicGrid.index H W x y)
      (AtomicCell.spawn (AtomicGrid.get H W g x y))).getD j 0 =
      g.getD j 0 + (if AtomicGrid.index H W x y = j then 1 else 0) := by
    intro j
    rw [getD_set]
    by_cases hij : AtomicGrid.index H W x y = j
    · subst hij
      rw [if_pos ⟨rfl, hilen⟩, if_pos rfl]
      exact hspawnb
    · rw [if_neg (fun hcc => hij hcc.1), if_neg hij]
      omega
  have hwf1 : ∀ j, (g.set (AtomicGrid.index H W x y)
      (AtomicCell.spawn (AtomicGrid.get H W g x y))).getD j 0 < 18 := by
    intro j
    rw [hg1 j]
    have h1 := hwf j
    by_cases hij : AtomicGrid.index H W x y = j
    · subst hij; rw [if_pos rfl]; omega
    · rw [if_neg hij]; omega
  have hlen1 : (g.set (AtomicGrid.index H W x y)
      (AtomicCell.spawn (AtomicGrid.get H W g x y))).length = g.length :=
    List.length_set ..
  have hcs : ∀ c ∈ AtomicGrid.neighbor_coordinates x y,
      AtomicGrid.index H W c.1 c.2 < (g.set (AtomicGrid.index H W x y)
        (AtomicCell.spawn (AtomicGrid.get H W g x y))).length := by
    intro c _
    rw [hlen1, hlen]
    exact index_lt H W _ _ hH hW
  have hok : ∀ j, (g.set (AtomicGrid.index H W x y)
      (AtomicCell.spawn (AtomicGrid.get H W g x y))).getD j 0 / 2 +
      countIdx ((AtomicGrid.neighbor_coordinates x y).map
        fun c => AtomicGrid.index H W c.1 c.2) j ≤ 8 := by
    intro j
    rw [targets_map]
    by_cases hcnt : countIdx (neighborTargets H W x y) j = 0
    · rw [hcnt]
      have := hwf1 j
      omega
    · have hmem : j ∈ neighborTargets H W x y := countIdx_pos_mem (by omega)
      have hjlt : j < H * W := mem_targets_lt hH hW hmem
      have hg1j : (g.set (AtomicGrid.index H W x y)
          (AtomicCell.spawn (AtomicGrid.get H W g x y))).getD j 0 / 2 =
          g.getD j 0 / 2 := by
        rw [hg1 j]
        by_cases hij : AtomicGrid.index H W x y = j
        · subst hij; rw [if_pos rfl]; omega
        · rw [if_neg hij]; omega
      have hns := consistent_div2 hc hjlt
      have hsym := mult_symm hH hW x y hjlt
      have hbound := sum_add_countIdx_le
        (neighborTargets H W ((j % W : Nat) : Int) ((j / W : Nat) : Int))
        (fun t => aliveBit (g.getD t 0)) (AtomicGrid.index H W x y)
        (fun t _ => aliveBit_le_one _) hdead
      rw [neighborTargets_length] at hbound
      have hsum : ((neighborTargets H W ((j % W : Nat) : Int) ((j / W : Nat) : Int)).map
          fun t => aliveBit (g.getD t 0)).sum =
          neighborSum H W g ((j % W : Nat) : Int) ((j / W : Nat) : Int) := rfl
      rw [hsum] at hbound
      unfold neighborMult at hsym
      omega
  have hsome := add_neighbors_complete H W (AtomicGrid.neighbor_coordinates x y) _
    hwf1 hcs hok
  obtain ⟨g', hg'⟩ := Option.isSome_iff_exists.1 hsome
  obtain ⟨hl, hw, hf⟩ := add_neighbors_sound H W (AtomicGrid.neighbor_coordinates x y)
    _ g' hg' hwf1 hcs
  have hform : ∀ j, g'.getD j 0 = g.getD j 0 +
      (if AtomicGrid.index H W x y = j then 1 else 0) + 2 * neighborMult H W x y j := by
    intro j
    have h := hf j
    rw [targets_map] at h
    rw [h, hg1 j]
    rfl
  refine ⟨g', hg', ⟨by rw [hl, hlen1, hlen], ?_⟩, hform⟩
  intro j hj
  have hsym := mult_symm hH hW x y hj
  have hshift : neighborSum H W g' ((j % W : Nat) : Int) ((j / W : Nat) : Int) =
      neighborSum H W g ((j % W : Nat) : Int) ((j / W : Nat) : Int) +
      countIdx (neighborTargets H W ((j % W : Nat) : Int) ((j / W : Nat) : Int))
        (AtomicGrid.index H W x y) := by
    unfold neighborSum
    apply sum_map_shift
    intro t _
    have hft := hform t
    unfold neighborMult at hft
    rw [aliveBit_eq_mod, aliveBit_eq_mod]
    by_cases hti : t = AtomicGrid.index H W x y
    · subst hti
      rw [if_pos rfl]
      rw [if_pos rfl] at hft
      omega
    · rw [if_neg hti]
      rw [if_neg (fun h => hti h.symm)] at hft
      omega
  have hcj := hc.2 j hj
  have hfj := hform j
  unfold neighborMult at hsym hfj
  rw [aliveBit_eq_mod] at hcj
  rw [aliveBit_eq_mod, hshift, ← hsym]
  by_cases hij : AtomicGrid.index H W x y = j
  · rw [if_pos hij] at hfj
    rw [← hij] at hcj hfj ⊢
    omega
  · rw [if_neg hij] at hfj
    omega

theorem kill_spec {H W : Nat} (hH : 0 < H) (hW : 0 < W) {g : List Nat} (x y : Int)
    (hc : Consistent H W g)
    (halive : aliveBit (AtomicGrid.get H W g x y) = 1) :
    ∃ g', AtomicGrid.kill H W g x y = some g' ∧ Consistent H W g' ∧
      ∀ j, g.getD j 0 = g'.getD j 0 +
        (if AtomicGrid.index H W x y = j then 1 else 0) + 2 * neighborMult H W x y j := by
  have hwf := consistent_wf hc
  have hlen : g.length = H * W := hc.1
  have hilen : AtomicGrid.index H W x y < g.length := by
    rw [hlen]; exact index_lt H W x y hH hW
  have hbodd : g.getD (AtomicGrid.index H W x y) 0 % 2 = 1 := by
    rw [← aliveBit_eq_mod]; exact halive
  have hkillb : AtomicCell.kill (AtomicGrid.get H W g x y) =
      g.getD (AtomicGrid.index H W x y) 0 - 1 := by
    show AtomicCell.kill (g.getD (AtomicGrid.index H W x y) 0) = _
    have h := kill_byte _ (hwf (AtomicGrid.index H W x y))
    omega
  have hg1 : ∀ j, g.getD j 0 = (g.set (AtomicGrid.index H W x y)
      (AtomicCell.kill (AtomicGrid.get H W g x y))).getD j 0 +
      (if AtomicGrid.index H W x y = j then 1 else 0) := by
    intro j
    rw [getD_set]
    by_cases hij : AtomicGrid.index H W x y = j
    · subst hij
      rw [if_pos ⟨rfl, hilen⟩, if_pos rfl, hkillb]
      omega
    · rw [if_neg (fun hcc => hij hcc.1), if_neg hij]
      omega
  have hwf1 : ∀ j, (g.set (AtomicGrid.index H W x y)
      (AtomicCell.kill (AtomicGrid.get H W g x y))).getD j 0 < 18 := by
    intro j
    have h1 := hwf j
    have h2 := hg1 j
    omega
  have hlen1 : (g.set (AtomicGrid.index H W x y)
      (AtomicCell.kill (AtomicGrid.get H W g x y))).length = g.length :=
    List.length_set ..
  have hcs : ∀ c ∈ AtomicGrid.neighbor_coordinates x y,
      AtomicGrid.index H W c.1 c.2 < (g.set (AtomicGrid.index H W x y)
        (AtomicCell.kill (AtomicGrid.get H W g x y))).length := by
    intro c _
    rw [hlen1, hlen]
    exact index_lt H W _ _ hH hW
  have hok : ∀ j, countIdx ((AtomicGrid.neighbor_coordinates x y).map
        fun c => AtomicGrid.index H W c.1 c.2) j ≤
      (g.set (AtomicGrid.index H W x y)
        (AtomicCell.kill (AtomicGrid.get H W g x y))).getD j 0 / 2 := by
    intro j
    rw [targets_map]
    by_cases hcnt : countIdx (neighborTargets H W x y) j = 0
    · rw [hcnt]; omega
    · have hmem : j ∈ neighborTargets H W x y := countIdx_pos_mem (by omega)
      have hjlt : j < H * W := mem_targets_lt hH hW hmem
      have hg1j : (g.set (AtomicGrid.index H W x y)
          (AtomicCell.kill (AtomicGrid.get H W g x y))).getD j 0 / 2 =
          g.getD j 0 / 2 := by
        have h2 := hg1 j
        by_cases hij : AtomicGrid.index H W x y = j
        · rw [if_pos hij] at h2
          have := hbodd
          rw [hij] at this
          omega
        · rw [if_neg hij] at h2
          omega
      have hns := consistent_div2 hc hjlt
      have hsym := mult_symm hH hW x y hjlt
      have hbound := countIdx_le_sum
        (neighborTargets H W ((j % W : Nat) : Int) ((j / W : Nat) : Int))
        (fun t => aliveBit (g.getD t 0)) (AtomicGrid.index H W x y)
        (by show 1 ≤ aliveBit (g.getD (AtomicGrid.index H W x y) 0)
            rw [aliveBit_eq_mod]; omega)
      have hsum : ((neighborTargets H W ((j % W : Nat) : Int) ((j / W : Nat) : Int)).map
          fun t => aliveBit (g.getD t 0)).sum =
          neighborSum H W g ((j % W : Nat) : Int) ((j / W : Nat) : Int) := rfl
      rw [hsum] at hbound
      unfold neighborMult at hsym
      omega
  have hsome := remove_neighbors_complete H W (AtomicGrid.neighbor_coordinates x y) _
    hwf1 hcs hok
  obtain ⟨g', hg'⟩ := Option.isSome_iff_exists.1 hsome
  obtain ⟨hl, hw, hf⟩ := remove_neighbors_sound H W (AtomicGrid.neighbor_coordinates x y)
    _ g' hg' hwf1 hcs
  have hform : ∀ j, g.getD j 0 = g'.getD j 0 +
      (if AtomicGrid.index H W x y = j then 1 else 0) + 2 * neighborMult H W x y j := by
    intro j
    have h := hf j
    rw [targets_map] at h
    have h2 := hg1 j
    unfold neighborMult
    omega
  refine ⟨g', hg', ⟨by rw [hl, hlen1, hlen], ?_⟩, hform⟩
  intro j hj
  have hsym := mult_symm hH hW x y hj
  have hshift : neighborSum H W g ((j % W : Nat) : Int) ((j / W : Nat) : Int) =
      neighborSum H W g' ((j % W : Nat) : Int) ((j / W : Nat) : Int) +
      countIdx (neighborTargets H W ((j % W : Nat) : Int) ((j / W : Nat) : Int))
        (AtomicGrid.index H W x y) := by
    unfold neighborSum
    apply sum_map_shift
    intro t _
    have hft := hform t
    unfold neighborMult at hft
    rw [aliveBit_eq_mod, aliveBit_eq_mod]
    by_cases hti : t = AtomicGrid.index H W x y
    · subst hti
      rw [if_pos rfl]
      rw [if_pos rfl] at hft
      omega
    · rw [if_neg hti]
      rw [if_neg (fun h => hti h.symm)] at hft
      omega
  have hcj := hc.2 j hj
  have hfj := hform j
  unfold neighborMult at hsym hfj
  rw [aliveBit_eq_mod] at hcj
  rw [aliveBit_eq_mod]
  rw [hshift, ← hsym] at hcj
  by_cases hij : AtomicGrid.index H W x y = j
  · rw [if_pos hij] at hfj
    rw [← hij] at hcj hfj ⊢
    omega
  · rw [if_neg hij] at hfj
    omega

/-! ## C6: the cell-level rejections are unreachable from grid logic -/

theorem consistent_init (H W : Nat) : Consistent H W (List.replicate (H * W) 0) := by
  refine ⟨List.length_replicate _ _, ?_⟩
  intro j hj
  rw [getD_replicate_zero]
  have hns : neighborSum H W (List.replicate (H * W) 0)
      ((j % W : Nat) : Int) ((j / W : Nat) : Int) = 0 := by
    unfold neighborSum
    apply List.sum_eq_zero
    intro v hv
    obtain ⟨t, -, rfl⟩ := List.mem_map.1 hv
    rw [getD_replicate_zero]
    rfl
  rw [hns]
  decide

/-- The grids produced by the grid/generator logic: starting all dead, cells
are only ever spawned while dead and killed while alive (each neighbour is
incremented at most once per spawn). -/
inductive GridReachable (H W : Nat) : List Nat → Prop where
  | init : GridReachable H W (List.replicate (H * W) 0)
  | spawn {g g' : List Nat} {x y : Int} : GridReachable H W g →
      AtomicCell.alive (AtomicGrid.get H W g x y) = false →
      AtomicGrid.spawn H W g x y = some g' → GridReachable H W g'
  | kill {g g' : List Nat} {x y : Int} : GridReachable H W g →
      AtomicCell.alive (AtomicGrid.get H W g x y) = true →
      AtomicGrid.kill H W g x y = some g' → GridReachable H W g'

theorem reachable_consistent {H W : Nat} (hH : 0 < H) (hW : 0 < W) {g : List Nat}
    (hr : GridReachable H W g) : Consistent H W g := by
  induction hr with
  | init => exact consistent_init H W
  | spawn hr hdead hsp ih =>
      obtain ⟨g'', hsp', hcons, -⟩ :=
        spawn_spec hH hW _ _ ih ((alive_false_iff _).1 hdead)
      have he : g'' = _ := Option.some_inj.mp (hsp'.symm.trans hsp)
      rwa [he] at hcons
  | kill hr halive hkl ih =>
      obtain ⟨g'', hkl', hcons, -⟩ :=
        kill_spec hH hW _ _ ih ((alive_true_iff _).1 halive)
      have he : g'' = _ := Option.some_inj.mp (hkl'.symm.trans hkl)
      rwa [he] at hcons

/-- **C6.** On every grid reachable through the grid/generator discipline
(spawn only dead cells, kill only alive cells, starting from the all-dead
grid), the error branches of `add_neighbor` (count already 8) and
`remove_neighbor` (count already 0) never fire: `spawn` on a dead cell and
`kill` on an alive cell never panic. -/
theorem c6_cell_rejections_never_fire (H W : Nat) (g : List Nat)
    (hH : 0 < H) (hW : 0 < W) (hr : GridReachable H W g) :
    (∀ x y : Int, AtomicCell.alive (AtomicGrid.get H W g x y) = false →
        AtomicGrid.spawn H W g x y ≠ none) ∧
    (∀ x y : Int, AtomicCell.alive (AtomicGrid.get H W g x y) = true →
        AtomicGrid.kill H W g x y ≠ none) := by
  have hc := reachable_consistent hH hW hr
  constructor
  · intro x y hdead
    obtain ⟨g', hsp, -, -⟩ := spawn_spec hH hW x y hc ((alive_false_iff _).1 hdead)
    rw [hsp]
    exact fun h => Option.noConfusion h
  · intro x y halive
    obtain ⟨g', hkl, -, -⟩ := kill_spec hH hW x y hc ((alive_true_iff _).1 halive)
    rw [hkl]
    exact fun h => Option.noConfusion h

/-- Witness for C6: the all-dead 1×1 grid (where all 8 kernel offsets hit
the centre, the hardest case). -/
theorem c6_cell_rejections_never_fire_witness :
    AtomicGrid.spawn 1 1 (List.replicate 1 0) 0 0 ≠ none :=
  (c6_cell_rejections_never_fire 1 1 (List.replicate 1 0) (by decide) (by decide)
    GridReachable.init).1 0 0 (by decide)

/-! ## C5: the exact frame effect of spawn and kill -/

theorem spawn_alive : ∀ b < 18, AtomicCell.alive (AtomicCell.spawn b) = true := by decide

theorem spawn_neighbors : ∀ b < 18,
    AtomicCell.neighbors (AtomicCell.spawn b) = AtomicCell.neighbors b := by decide

theorem kill_alive : ∀ b < 18, AtomicCell.alive (AtomicCell.kill b) = false := by decide

theorem kill_neighbors : ∀ b < 18,
    AtomicCell.neighbors (AtomicCell.kill b) = AtomicCell.neighbors b := by decide

theorem small_offset_eq {n : Int} (hn : 3 ≤ n) {a u v : Int}
    (h : (a + u) % n = (a + v) % n) (hu : u.natAbs ≤ 1) (hv : v.natAbs ≤ 1) :
    u = v := by
  rw [Int.emod_eq_emod_iff_emod_sub_eq_zero] at h
  have hdvd : n ∣ (a + u - (a + v)) := Int.dvd_of_emod_eq_zero h
  have he : a + u - (a + v) = u - v := by ring
  rw [he] at hdvd
  have habs : |u - v| < n := by rw [abs_lt]; omega
  have := Int.eq_zero_of_abs_lt_dvd hdvd habs
  omega

theorem targets_nodup {H W : Nat} (hH : 3 ≤ H) (hW : 3 ≤ W) (x y : Int) :
    (neighborTargets H W x y).Nodup := by
  rw [neighborTargets_eq]
  apply List.Nodup.map_on ?_ D8_nodup
  intro d1 h1 d2 h2 heq
  have hb1 := D8_bounds d1 h1
  have hb2 := D8_bounds d2 h2
  rw [index_eq_index_iff (by omega) (by omega)] at heq
  obtain ⟨e1, e2⟩ := heq
  have d1eq : d1.1 = d2.1 :=
    small_offset_eq (by exact_mod_cast hW) e1 hb1.1 hb2.1
  have d2eq : d1.2 = d2.2 :=
    small_offset_eq (by exact_mod_cast hH) e2 hb1.2 hb2.2
  obtain ⟨a1, b1⟩ := d1
  obtain ⟨a2, b2⟩ := d2
  simp only at d1eq d2eq
  rw [d1eq, d2eq]

theorem center_not_target {H W : Nat} (hH : 3 ≤ H) (hW : 3 ≤ W) (x y : Int) :
    AtomicGrid.index H W x y ∉ neighborTargets H W x y := by
  intro hmem
  rw [neighborTargets_eq] at hmem
  obtain ⟨d, hd, heq⟩ := List.mem_map.1 hmem
  have hb := D8_bounds d hd
  rw [index_eq_index_iff (by omega) (by omega)] at heq
  obtain ⟨e1, e2⟩ := heq
  have e1' : (x + d.1) % (W : Int) = (x + 0) % (W : Int) := by rwa [add_zero]
  have e2' : (y + d.2) % (H : Int) = (y + 0) % (H : Int) := by rwa [add_zero]
  have hd1 : d.1 = 0 :=
    small_offset_eq (by exact_mod_cast hW) e1' hb.1 (by decide)
  have hd2 : d.2 = 0 :=
    small_offset_eq (by exact_mod_cast hH) e2' hb.2 (by decide)
  exact D8_no_center d hd ⟨hd1, hd2⟩

theorem isizeWrap_eq_self (z : Int) (h1 : -(2 ^ 63) ≤ z) (h2 : z < 2 ^ 63) :
    AtomicGrid.isizeWrap z = z := by
  unfold AtomicGrid.isizeWrap
  have p63 : (2 : Int) ^ 63 = 9223372036854775808 := by norm_num
  have p64 : (2 : Int) ^ 64 = 18446744073709551616 := by norm_num
  rw [p63, p64] at *
  rw [Int.emod_eq_of_lt (by omega) (by omega)]
  omega

/-- Away from the `isize` extremes the wrapping kernel and the plain-offset
kernel coincide. -/
theorem neighbor_coordinates_w_agree {x y : Int}
    (hx1 : -(2 ^ 63) < x) (hx2 : x < 2 ^ 63 - 1)
    (hy1 : -(2 ^ 63) < y) (hy2 : y < 2 ^ 63 - 1) :
    AtomicGrid.neighbor_coordinates_w x y = AtomicGrid.neighbor_coordinates x y := by
  have p63 : (2 : Int) ^ 63 = 9223372036854775808 := by norm_num
  rw [p63] at hx1 hx2 hy1 hy2
  unfold AtomicGrid.neighbor_coordinates_w AtomicGrid.neighbor_coordinates
    AtomicGrid.wrapping_add AtomicGrid.wrapping_sub
  rw [isizeWrap_eq_self (x - 1) (by rw [p63]; omega) (by rw [p63]; omega),
    isizeWrap_eq_self (x + 1) (by rw [p63]; omega) (by rw [p63]; omega),
    isizeWrap_eq_self (y - 1) (by rw [p63]; omega) (by rw [p63]; omega),
    isizeWrap_eq_self (y + 1) (by rw [p63]; omega) (by rw [p63]; omega)]

theorem spawn_w_agree (H W : Nat) (g : List Nat) {x y : Int}
    (hx1 : -(2 ^ 63) < x) (hx2 : x < 2 ^ 63 - 1)
    (hy1 : -(2 ^ 63) < y) (hy2 : y < 2 ^ 63 - 1) :
    AtomicGrid.spawn_w H W g x y = AtomicGrid.spawn H W g x y := by
  unfold AtomicGrid.spawn_w AtomicGrid.spawn
  rw [neighbor_coordinates_w_agree hx1 hx2 hy1 hy2]

theorem kill_w_agree (H W : Nat) (g : List Nat) {x y : Int}
    (hx1 : -(2 ^ 63) < x) (hx2 : x < 2 ^ 63 - 1)
    (hy1 : -(2 ^ 63) < y) (hy2 : y < 2 ^ 63 - 1) :
    AtomicGrid.kill_w H W g x y = AtomicGrid.kill H W g x y := by
  unfold AtomicGrid.kill_w AtomicGrid.kill
  rw [neighbor_coordinates_w_agree hx1 hx2 hy1 hy2]

/-- **C5 (counterexample to the claim as stated).** Two collisions of the
wrapped kernel.  On the 1×1 torus all 8 kernel offsets of `(0,0)` resolve
to the centre itself: `spawn` increments the centre's own neighbour count
eight times (0 → 8).  And on the 3×3 torus, a spawn at
`(isize::MIN, isize::MIN)` succeeds but its `isize`-wrapped kernel hits the
centre cell three times (count 0 → 3) and two other cells twice, because
`2^64` is not a multiple of 3.  Both contradict "increments exactly its 8
toroidal neighbours by 1 each … and leaves the centre's own neighbour
count unchanged". -/
theorem c5_spawn_counterexample :
    (AtomicGrid.spawn_w 1 1 [0] 0 0 = some [17] ∧
     AtomicCell.neighbors (AtomicGrid.get 1 1 [17] 0 0) = 8 ∧
     AtomicCell.neighbors (AtomicGrid.get 1 1 [0] 0 0) = 0) ∧
    (AtomicGrid.spawn_w 3 3 (List.replicate 9 0) (-(2 ^ 63)) (-(2 ^ 63)) =
        some [0, 0, 0, 0, 7, 4, 0, 4, 2] ∧
     AtomicGrid.index 3 3 (-(2 ^ 63)) (-(2 ^ 63)) = 4 ∧
     AtomicCell.neighbors
        (AtomicGrid.get 3 3 [0, 0, 0, 0, 7, 4, 0, 4, 2] (-(2 ^ 63)) (-(2 ^ 63))) = 3 ∧
     AtomicCell.neighbors
        (AtomicGrid.get 3 3 (List.replicate 9 0) (-(2 ^ 63)) (-(2 ^ 63))) = 0) := by
  decide

/-- The exact frame effect of spawn and kill in the plain-offset kernel
model, for non-degenerate grids and well-formed bytes. -/
theorem spawn_kill_frame_core (H W : Nat) (g gs gk : List Nat) (x y : Int)
    (hH : 3 ≤ H) (hW : 3 ≤ W) (hlen : g.length = H * W)
    (hwf : ∀ j, g.getD j 0 < 18) :
    (AtomicGrid.spawn H W g x y = some gs →
      AtomicCell.alive (AtomicGrid.get H W gs x y) = true ∧
      AtomicCell.neighbors (AtomicGrid.get H W gs x y) =
        AtomicCell.neighbors (AtomicGrid.get H W g x y) ∧
      (∀ p ∈ AtomicGrid.neighbor_coordinates x y,
        AtomicCell.neighbors (AtomicGrid.get H W gs p.1 p.2) =
          AtomicCell.neighbors (AtomicGrid.get H W g p.1 p.2) + 1 ∧
        AtomicCell.alive (AtomicGrid.get H W gs p.1 p.2) =
          AtomicCell.alive (AtomicGrid.get H W g p.1 p.2)) ∧
      (∀ j, j < H * W → AtomicGrid.index H W x y ≠ j →
        j ∉ neighborTargets H W x y → gs.getD j 0 = g.getD j 0)) ∧
    (AtomicGrid.kill H W g x y = some gk →
      AtomicCell.alive (AtomicGrid.get H W gk x y) = false ∧
      AtomicCell.neighbors (AtomicGrid.get H W gk x y) =
        AtomicCell.neighbors (AtomicGrid.get H W g x y) ∧
      (∀ p ∈ AtomicGrid.neighbor_coordinates x y,
        AtomicCell.neighbors (AtomicGrid.get H W g p.1 p.2) =
          AtomicCell.neighbors (AtomicGrid.get H W gk p.1 p.2) + 1 ∧
        AtomicCell.alive (AtomicGrid.get H W gk p.1 p.2) =
          AtomicCell.alive (AtomicGrid.get H W g p.1 p.2)) ∧
      (∀ j, j < H * W → AtomicGrid.index H W x y ≠ j →
        j ∉ neighborTargets H W x y → gk.getD j 0 = g.getD j 0)) := by
  have h0H : 0 < H := by omega
  have h0W : 0 < W := by omega
  have hilen : AtomicGrid.index H W x y < g.length := by
    rw [hlen]; exact index_lt H W x y h0H h0W
  have hnd := targets_nodup hH hW x y
  have hct := center_not_target hH hW x y
  constructor
  · intro hsp
    have hwf1 : ∀ j, (g.set (AtomicGrid.index H W x y)
        (AtomicCell.spawn (AtomicGrid.get H W g x y))).getD j 0 < 18 := by
      intro j
      rw [getD_set]
      by_cases hij : AtomicGrid.index H W x y = j ∧ AtomicGrid.index H W x y < g.length
      · rw [if_pos hij]
        exact spawn_byte_lt _ (hwf (AtomicGrid.index H W x y))
      · rw [if_neg hij]; exact hwf j
    have hcs : ∀ c ∈ AtomicGrid.neighbor_coordinates x y,
        AtomicGrid.index H W c.1 c.2 < (g.set (AtomicGrid.index H W x y)
          (AtomicCell.spawn (AtomicGrid.get H W g x y))).length := by
      intro c _
      rw [List.length_set, hlen]
      exact index_lt H W _ _ h0H h0W
    obtain ⟨hl, hw, hf⟩ := add_neighbors_sound H W (AtomicGrid.neighbor_coordinates x y)
      _ gs hsp hwf1 hcs
    have hcenter : gs.getD (AtomicGrid.index H W x y) 0 =
        AtomicCell.spawn (AtomicGrid.get H W g x y) := by
      have h := hf (AtomicGrid.index H W x y)
      rw [targets_map, countIdx_eq_zero hct] at h
      rw [h, getD_set, if_pos ⟨rfl, hilen⟩]
      omega
    have hbc := hwf (AtomicGrid.index H W x y)
    refine ⟨?_, ?_, ?_, ?_⟩
    · show AtomicCell.alive (gs.getD (AtomicGrid.index H W x y) 0) = true
      rw [hcenter]
      exact spawn_alive _ hbc
    · show AtomicCell.neighbors (gs.getD (AtomicGrid.index H W x y) 0) = _
      rw [hcenter]
      exact spawn_neighbors _ hbc
    · intro p hp
      have hmem : AtomicGrid.index H W p.1 p.2 ∈ neighborTargets H W x y :=
        List.mem_map_of_mem _ hp
      have hne : AtomicGrid.index H W x y ≠ AtomicGrid.index H W p.1 p.2 :=
        fun he => hct (he ▸ hmem)
      have ht : gs.getD (AtomicGrid.index H W p.1 p.2) 0 =
          g.getD (AtomicGrid.index H W p.1 p.2) 0 + 2 := by
        have h := hf (AtomicGrid.index H W p.1 p.2)
        rw [targets_map, countIdx_nodup hnd hmem, getD_set,
          if_neg (fun hcc => hne hcc.1)] at h
        omega
      have hle : g.getD (AtomicGrid.index H W p.1 p.2) 0 ≤ 15 := by
        have h1 := hw (AtomicGrid.index H W p.1 p.2)
        omega
      constructor
      · show AtomicCell.neighbors (gs.getD (AtomicGrid.index H W p.1 p.2) 0) = _
        rw [ht]
        exact neighbors_add_two _ (by omega)
      · show AtomicCell.alive (gs.getD (AtomicGrid.index H W p.1 p.2) 0) = _
        rw [ht]
        exact alive_add_two _ (by omega)
    · intro j _ hne hnt
      have h := hf j
      rw [targets_map, countIdx_eq_zero hnt, getD_set,
        if_neg (fun hcc => hne hcc.1)] at h
      omega
  · intro hkl
    have hwf1 : ∀ j, (g.set (AtomicGrid.index H W x y)
        (AtomicCell.kill (AtomicGrid.get H W g x y))).getD j 0 < 18 := by
      intro j
      rw [getD_set]
      by_cases hij : AtomicGrid.index H W x y = j ∧ AtomicGrid.index H W x y < g.length
      · rw [if_pos hij]
        exact kill_byte_lt _ (hwf (AtomicGrid.index H W x y))
      · rw [if_neg hij]; exact hwf j
    have hcs : ∀ c ∈ AtomicGrid.neighbor_coordinates x y,
        AtomicGrid.index H W c.1 c.2 < (g.set (AtomicGrid.index H W x y)
          (AtomicCell.kill (AtomicGrid.get H W g x y))).length := by
      intro c _
      rw [List.length_set, hlen]
      exact index_lt H W _ _ h0H h0W
    obtain ⟨hl, hw, hf⟩ := remove_neighbors_sound H W (AtomicGrid.neighbor_coordinates x y)
      _ gk hkl hwf1 hcs
    have hcenter : gk.getD (AtomicGrid.index H W x y) 0 =
        AtomicCell.kill (AtomicGrid.get H W g x y) := by
      have h := hf (AtomicGrid.index H W x y)
      rw [targets_map, countIdx_eq_zero hct, getD_set, if_pos ⟨rfl, hilen⟩] at h
      omega
    have hbc := hwf (AtomicGrid.index H W x y)
    refine ⟨?_, ?_, ?_, ?_⟩
    · show AtomicCell.alive (gk.getD (AtomicGrid.index H W x y) 0) = false
      rw [hcenter]
      exact kill_alive _ hbc
    · show AtomicCell.neighbors (gk.getD (AtomicGrid.index H W x y) 0) = _
      rw [hcenter]
      exact kill_neighbors _ hbc
    · intro p hp
      have hmem : AtomicGrid.index H W p.1 p.2 ∈ neighborTargets H W x y :=
        List.mem_map_of_mem _ hp
      have hne : AtomicGrid.index H W x y ≠ AtomicGrid.index H W p.1 p.2 :=
        fun he => hct (he ▸ hmem)
      have ht : g.getD (AtomicGrid.index H W p.1 p.2) 0 =
          gk.getD (AtomicGrid.index H W p.1 p.2) 0 + 2 := by
        have h := hf (AtomicGrid.index H W p.1 p.2)
        rw [targets_map, countIdx_nodup hnd hmem, getD_set,
          if_neg (fun hcc => hne hcc.1)] at h
        omega
      have hle : gk.getD (AtomicGrid.index H W p.1 p.2) 0 ≤ 15 := by
        have h1 := hwf (AtomicGrid.index H W p.1 p.2)
        omega
      constructor
      · show AtomicCell.neighbors (g.getD (AtomicGrid.index H W p.1 p.2) 0) =
          AtomicCell.neighbors (gk.getD (AtomicGrid.index H W p.1 p.2) 0) + 1
        rw [ht]
        exact neighbors_add_two _ (by omega)
      · show AtomicCell.alive (gk.getD (AtomicGrid.index H W p.1 p.2) 0) =
          AtomicCell.alive (g.getD (AtomicGrid.index H W p.1 p.2) 0)
        rw [ht]
        exact (alive_add_two _ (by omega)).symm
    · intro j _ hne hnt
      have h := hf j
      rw [targets_map, countIdx_eq_zero hnt, getD_set,
        if_neg (fun hcc => hne hcc.1)] at h
      omega

/-- **C5 (amended).** On grids with `H ≥ 3` and `W ≥ 3`, with well-formed
cell bytes, and at centre coordinates strictly between the `isize` extremes
(so the kernel's `wrapping_add`/`wrapping_sub` offsets coincide with plain
`±1` and the 8 wrapped kernel neighbours are pairwise distinct cells, all
different from the centre): a successful `spawn(x,y)` sets the centre's
alive bit, leaves the centre's neighbour count unchanged, increments the
count of each of the 8 kernel neighbours by exactly 1 without touching
their alive bits, and changes no other cell; a successful `kill(x,y)`
mirrors this, clearing only the centre's alive bit and decrementing exactly
those 8 counts by 1.  (`spawn_w`/`kill_w` are the bit-exact embeddings of
`Grid::spawn`/`Grid::kill`, wrapping kernel included.) -/
theorem c5_spawn_kill_frame_effect (H W : Nat) (g gs gk : List Nat) (x y : Int)
    (hH : 3 ≤ H) (hW : 3 ≤ W) (hlen : g.length = H * W)
    (hwf : ∀ j, g.getD j 0 < 18)
    (hx1 : -(2 ^ 63) < x) (hx2 : x < 2 ^ 63 - 1)
    (hy1 : -(2 ^ 63) < y) (hy2 : y < 2 ^ 63 - 1) :
    (AtomicGrid.spawn_w H W g x y = some gs →
      AtomicCell.alive (AtomicGrid.get H W gs x y) = true ∧
      AtomicCell.neighbors (AtomicGrid.get H W gs x y) =
        AtomicCell.neighbors (AtomicGrid.get H W g x y) ∧
      (∀ p ∈ AtomicGrid.neighbor_coordinates_w x y,
        AtomicCell.neighbors (AtomicGrid.get H W gs p.1 p.2) =
          AtomicCell.neighbors (AtomicGrid.get H W g p.1 p.2) + 1 ∧
        AtomicCell.alive (AtomicGrid.get H W gs p.1 p.2) =
          AtomicCell.alive (AtomicGrid.get H W g p.1 p.2)) ∧
      (∀ j, j < H * W → AtomicGrid.index H W x y ≠ j →
        j ∉ neighborTargets_w H W x y → gs.getD j 0 = g.getD j 0)) ∧
    (AtomicGrid.kill_w H W g x y = some gk →
      AtomicCell.alive (AtomicGrid.get H W gk x y) = false ∧
      AtomicCell.neighbors (AtomicGrid.get H W gk x y) =
        AtomicCell.neighbors (AtomicGrid.get H W g x y) ∧
      (∀ p ∈ AtomicGrid.neighbor_coordinates_w x y,
        AtomicCell.neighbors (AtomicGrid.get H W g p.1 p.2) =
          AtomicCell.neighbors (AtomicGrid.get H W gk p.1 p.2) + 1 ∧
        AtomicCell.alive (AtomicGrid.get H W gk p.1 p.2) =
          AtomicCell.alive (AtomicGrid.get H W g p.1 p.2)) ∧
      (∀ j, j < H * W → AtomicGrid.index H W x y ≠ j →
        j ∉ neighborTargets_w H W x y → gk.getD j 0 = g.getD j 0)) := by
  have hkc := neighbor_coordinates_w_agree hx1 hx2 hy1 hy2
  have htg : neighborTargets_w H W x y = neighborTargets H W x y := by
    unfold neighborTargets_w neighborTargets
    rw [hkc]
  rw [spawn_w_agree H W g hx1 hx2 hy1 hy2, kill_w_agree H W g hx1 hx2 hy1 hy2,
    hkc, htg]
  exact spawn_kill_frame_core H W g gs gk x y hH hW hlen hwf

theorem getD_lt_of_forall_mem {g : List Nat} (h : ∀ b ∈ g, b < 18) :
    ∀ j, g.getD j 0 < 18 := by
  intro j
  induction g generalizing j with
  | nil => simp
  | cons a t ih =>
      cases j with
      | zero => exact h a (List.mem_cons_self a t)
      | succ j =>
          rw [List.getD_cons_succ]
          exact ih (fun b hb => h b (List.mem_cons_of_mem a hb)) j

/-- Witness for the amended C5 on a concrete 3×3 grid with an alive centre
and one alive neighbour count everywhere. -/
theorem c5_spawn_kill_frame_effect_witness :
    (AtomicGrid.spawn_w 3 3 [2, 2, 2, 2, 1, 2, 2, 2, 2] 1 1 =
        some [4, 4, 4, 4, 1, 4, 4, 4, 4] →
      AtomicCell.alive (AtomicGrid.get 3 3 [4, 4, 4, 4, 1, 4, 4, 4, 4] 1 1) = true ∧
      AtomicCell.neighbors (AtomicGrid.get 3 3 [4, 4, 4, 4, 1, 4, 4, 4, 4] 1 1) =
        AtomicCell.neighbors (AtomicGrid.get 3 3 [2, 2, 2, 2, 1, 2, 2, 2, 2] 1 1) ∧
      (∀ p ∈ AtomicGrid.neighbor_coordinates_w 1 1,
        AtomicCell.neighbors (AtomicGrid.get 3 3 [4, 4, 4, 4, 1, 4, 4, 4, 4] p.1 p.2) =
          AtomicCell.neighbors (AtomicGrid.get 3 3 [2, 2, 2, 2, 1, 2, 2, 2, 2] p.1 p.2) + 1 ∧
        AtomicCell.alive (AtomicGrid.get 3 3 [4, 4, 4, 4, 1, 4, 4, 4, 4] p.1 p.2) =
          AtomicCell.alive (AtomicGrid.get 3 3 [2, 2, 2, 2, 1, 2, 2, 2, 2] p.1 p.2)) ∧
      (∀ j, j < 3 * 3 → AtomicGrid.index 3 3 1 1 ≠ j →
        j ∉ neighborTargets_w 3 3 1 1 →
        List.getD [4, 4, 4, 4, 1, 4, 4, 4, 4] j 0 =
          List.getD [2, 2, 2, 2, 1, 2, 2, 2, 2] j 0)) ∧
    (AtomicGrid.kill_w 3 3 [2, 2, 2, 2, 1, 2, 2, 2, 2] 1 1 =
        some [0, 0, 0, 0, 0, 0, 0, 0, 0] →
      AtomicCell.alive (AtomicGrid.get 3 3 [0, 0, 0, 0, 0, 0, 0, 0, 0] 1 1) = false ∧
      AtomicCell.neighbors (AtomicGrid.get 3 3 [0, 0, 0, 0, 0, 0, 0, 0, 0] 1 1) =
        AtomicCell.neighbors (AtomicGrid.get 3 3 [2, 2, 2, 2, 1, 2, 2, 2, 2] 1 1) ∧
      (∀ p ∈ AtomicGrid.neighbor_coordinates_w 1 1,
        AtomicCell.neighbors (AtomicGrid.get 3 3 [2, 2, 2, 2, 1, 2, 2, 2, 2] p.1 p.2) =
          AtomicCell.neighbors (AtomicGrid.get 3 3 [0, 0, 0, 0, 0, 0, 0, 0, 0] p.1 p.2) + 1 ∧
        AtomicCell.alive (AtomicGrid.get 3 3 [0, 0, 0, 0, 0, 0, 0, 0, 0] p.1 p.2) =
          AtomicCell.alive (AtomicGrid.get 3 3 [2, 2, 2, 2, 1, 2, 2, 2, 2] p.1 p.2)) ∧
      (∀ j, j < 3 * 3 → AtomicGrid.index 3 3 1 1 ≠ j →
        j ∉ neighborTargets_w 3 3 1 1 →
        List.getD [0, 0, 0, 0, 0, 0, 0, 0, 0] j 0 =
          List.getD [2, 2, 2, 2, 1, 2, 2, 2, 2] j 0)) :=
  c5_spawn_kill_frame_effect 3 3 [2, 2, 2, 2, 1, 2, 2, 2, 2]
    [4, 4, 4, 4, 1, 4, 4, 4, 4] [0, 0, 0, 0, 0, 0, 0, 0, 0] 1 1
    (by decide) (by decide) (by decide) (getD_lt_of_forall_mem (by decide))
    (by decide) (by decide) (by decide) (by decide)

/-! ## Generator (src/gol/src/generator/atomic_generator.rs) -/

namespace AtomicGenerator

/-- `update_cell_state(x, y)`: the apply-phase rule for one coordinate,
reading only the cache.  The source's `ControlFlow::Break` (all-zero cache
byte) and `Continue` both just continue the enclosing loops; `none` models
the panic propagated from `grid.kill` / `grid.spawn`. -/
def update_cell_state (H W : Nat) (cache grid : List Nat) (x y : Nat) :
    Option (List Nat) :=
  let c := AtomicGrid.get H W cache (x : Int) (y : Int)
  if c = 0 then some grid
  else
    let neighbor_count := AtomicCell.neighbors c
    if AtomicCell.alive c = true then
      if neighbor_count < 2 ∨ neighbor_count > 3 then
        AtomicGrid.kill H W grid (x : Int) (y : Int)
      else some grid
    else
      if neighbor_count = 3 then
        AtomicGrid.spawn H W grid (x : Int) (y : Int)
      else some grid

/-- The coordinate sequence of the nested loops
`for x in sx..ex { for y in sy..ey { ... } }`. -/
def coord_range (sx ex sy ey : Nat) : List (Nat × Nat) :=
  (List.range' sx (ex - sx)).flatMap fun x =>
    (List.range' sy (ey - sy)).map fun y => (x, y)

/-- Fold `update_cell_state` over a coordinate list against a fixed cache. -/
def apply_cells (H W : Nat) (cache : List Nat) :
    List (Nat × Nat) → List Nat → Option (List Nat)
  | [], grid => some grid
  | p :: ps, grid =>
      match update_cell_state H W cache grid p.1 p.2 with
      | none => none
      | some grid' => apply_cells H W cache ps grid'

/-- `update_grid_range(top_left, bottom_right)`. -/
def update_grid_range (H W : Nat) (cache : List Nat)
    (top_left bottom_right : Nat × Nat) (grid : List Nat) : Option (List Nat) :=
  apply_cells H W cache
    (coord_range top_left.1 bottom_right.1 top_left.2 bottom_right.2) grid

/-- `_update_grid`: the apply phase over all `(x, y) ∈ [0,H) × [0,W)`. -/
def update_grid (H W : Nat) (cache grid : List Nat) : Option (List Nat) :=
  update_grid_range H W cache (0, 0) (H, W) grid

/-- `generate` / `u_generate`: snapshot the live grid into the cache (both
the safe and the raw copy leave the cache byte-identical to the live grid),
then apply the rule everywhere against that frozen cache. -/
def generate (H W : Nat) (grid : List Nat) : Option (List Nat) :=
  update_grid H W grid grid

end AtomicGenerator

/-- Modelled from the spec's words (§4.3): the Conway action decided from a
cached cell — `some false` = kill, `some true` = spawn, `none` = leave the
live cell unchanged. -/
def ruleOf (c : Nat) : Option Bool :=
  if AtomicCell.alive c = true then
    if AtomicCell.neighbors c < 2 ∨ AtomicCell.neighbors c > 3 then some false
    else none
  else
    if AtomicCell.neighbors c = 3 then some true
    else none

/-- **C1.** The apply phase treats every coordinate exactly as specified:
an all-zero cached byte is skipped; otherwise, reading `alive()` and
`neighbors()` from the cache only, an alive cell with count < 2 or > 3 is
killed in the live grid, a dead cell with count exactly 3 is spawned, and
every other cell is left unchanged. -/
theorem c1_update_cell_state_follows_rule (H W : Nat) (cache grid : List Nat)
    (x y : Nat) :
    AtomicGenerator.update_cell_state H W cache grid x y =
      (if AtomicGrid.get H W cache (x : Int) (y : Int) = 0 then some grid
       else
         match ruleOf (AtomicGrid.get H W cache (x : Int) (y : Int)) with
         | some false => AtomicGrid.kill H W grid (x : Int) (y : Int)
         | some true => AtomicGrid.spawn H W grid (x : Int) (y : Int)
         | none => some grid) := by
  unfold AtomicGenerator.update_cell_state ruleOf
  by_cases h0 : AtomicGrid.get H W cache (x : Int) (y : Int) = 0
  · rw [if_pos h0, if_pos h0]
  · rw [if_neg h0, if_neg h0]
    by_cases hA : AtomicCell.alive (AtomicGrid.get H W cache (x : Int) (y : Int)) = true
    · rw [if_pos hA, if_pos hA]
      by_cases hn : AtomicCell.neighbors (AtomicGrid.get H W cache (x : Int) (y : Int)) < 2 ∨
          AtomicCell.neighbors (AtomicGrid.get H W cache (x : Int) (y : Int)) > 3
      · rw [if_pos hn, if_pos hn]
      · rw [if_neg hn, if_neg hn]
    · rw [if_neg hA, if_neg hA]
      by_cases hn : AtomicCell.neighbors (AtomicGrid.get H W cache (x : Int) (y : Int)) = 3
      · rw [if_pos hn, if_pos hn]
      · rw [if_neg hn, if_neg hn]

/-! ## C9: the 2×2 block on a 4×4 torus is a still life -/

/-- `BLOCK_SHAPE_OFFSETS` from the sources. -/
def BLOCK_SHAPE_OFFSETS : List (Int × Int) := [(0, 0), (1, 0), (0, 1), (1, 1)]

/-- The 4×4 grid seeded from all-dead with the 2×2 block at (0,0)–(1,1). -/
def blockSeed : List Nat :=
  (AtomicGrid.spawn_shape 4 4 (0, 0) BLOCK_SHAPE_OFFSETS (List.replicate 16 0)).getD []

/-- **C9.** Seeding a 4×4 torus with the 2×2 block at (0,0)–(1,1) and
running one generation leaves the grid bit-identical: the 4 block cells
stay alive with neighbour count 3, and every other cell stays dead with its
neighbour count equal to the number of alive block cells adjacent to it on
the torus. -/
theorem c9_block_still_life :
    AtomicGrid.spawn_shape 4 4 (0, 0) BLOCK_SHAPE_OFFSETS (List.replicate 16 0) =
      some blockSeed ∧
    AtomicGenerator.generate 4 4 blockSeed = some blockSeed ∧
    (∀ p ∈ BLOCK_SHAPE_OFFSETS,
      AtomicCell.alive (AtomicGrid.get 4 4 blockSeed p.1 p.2) = true ∧
      AtomicCell.neighbors (AtomicGrid.get 4 4 blockSeed p.1 p.2) = 3) ∧
    (∀ j, j < 16 → j ∉ [0, 1, 4, 5] →
      AtomicCell.alive (blockSeed.getD j 0) = false ∧
      AtomicCell.neighbors (blockSeed.getD j 0) =
        neighborSum 4 4 blockSeed ((j % 4 : Nat) : Int) ((j / 4 : Nat) : Int)) := by
  decide

/-! ## Scheduler (src/example/src/main.rs, `multi_threaded`) -/

/-- The partition bounds computed for worker `i` of `T` in
`multi_threaded`: `rows_per_thread = H / T`, `cols_per_thread = W / T`,
`start_row = (i / T) * rows_per_thread`, `start_col = (i % T) *
cols_per_thread`, each end bound `start + per_thread`. -/
def partition_bounds (T H W i : Nat) : (Nat × Nat) × (Nat × Nat) :=
  let rows_per_thread := H / T
  let cols_per_thread := W / T
  let start_row := (i / T) * rows_per_thread
  let end_row := start_row + rows_per_thread
  let start_col := (i % T) * cols_per_thread
  let end_col := start_col + cols_per_thread
  ((start_row, start_col), (end_row, end_col))

/-- Apply each worker's `update_grid_range` in turn against the shared
frozen cache. -/
def worker_pass (H W : Nat) (cache : List Nat) :
    List ((Nat × Nat) × (Nat × Nat)) → List Nat → Option (List Nat)
  | [], grid => some grid
  | b :: bs, grid =>
      match AtomicGenerator.update_grid_range H W cache b.1 b.2 grid with
      | none => none
      | some grid' => worker_pass H W cache bs grid'

/-- One generation of the multi-worker scheduler, sequentialised: the driver
snapshots the live grid into the cache, then every worker `i < T` applies
the rule over its fixed partition against that cache.  Each coordinate is
processed by at most one worker and the per-cell byte effects commute, so
this is the deterministic denotation of the synchronised concurrent run. -/
def multi_step (T H W : Nat) (grid : List Nat) : Option (List Nat) :=
  worker_pass H W grid ((List.range T).map fun i => partition_bounds T H W i) grid

/-- **C3 (refutation of coverage).** With `T = 2` workers on a 4×4 grid
(the same bound formula the example uses at 100×100), every worker is
assigned the row range `[0, 2)` — `start_row = (i / T) * (H / T)` is 0 for
every `i < T` — so first-coordinate 2 lies in no worker's partition and the
partitions do not cover the grid. -/
theorem c3_partition_bounds_no_coverage :
    (partition_bounds 2 4 4 0 = ((0, 0), (2, 2)) ∧
     partition_bounds 2 4 4 1 = ((0, 2), (2, 4))) ∧
    (∀ i, i < 2 →
      ¬((partition_bounds 2 4 4 i).1.1 ≤ 2 ∧ 2 < (partition_bounds 2 4 4 i).2.1)) := by
  decide

/-- The 4×4 grid with the single alive cell at (3,3). -/
def lonelySeed : List Nat :=
  (AtomicGrid.spawn 4 4 (List.replicate 16 0) 3 3).getD []

/-- **C2 (refutation).** On the 4×4 grid with one alive cell at (3,3), one
sequential generation kills the lone cell (all-dead result), and the
1-partition scheduler agrees; but the 2-partition scheduler — whose workers
only cover first-coordinates 0 and 1 — returns the grid unchanged, so the
multi-worker result is not the sequential result for every
T ∈ {1, 2, 4, 5}. -/
theorem c2_partitioned_run_diverges :
    AtomicGrid.spawn 4 4 (List.replicate 16 0) 3 3 = some lonelySeed ∧
    AtomicGenerator.generate 4 4 lonelySeed = some (List.replicate 16 0) ∧
    multi_step 1 4 4 lonelySeed = some (List.replicate 16 0) ∧
    multi_step 2 4 4 lonelySeed = some lonelySeed ∧
    lonelySeed ≠ List.replicate 16 0 := by
  decide

end GoL
